import Mathlib

/-
Verification of the core data structures and algorithms of the `ppdb`
repository (file `ppdb/ppdb.py`): the `TransformationDict` trie with its
middle-token index, the partial-expression matcher, and the Boyer-Moore
sequence search.

Conventions of the embedding:
* Python tuples/lists of tokens are `List String`; the right-hand sides
  stored in a node's rule set are `List String` as well, and a Python
  `set` is embedded as a duplicate-free insertion-ordered `List`
  (insertion appends only if the element is absent, matching `set.add`
  up to the iteration order, which CPython leaves unspecified for sets;
  the embedding fixes it to insertion order).
* A Python `dict` is embedded as an insertion-ordered association list:
  assignment overwrites in place or appends a fresh key at the end,
  exactly like CPython's ordered dictionaries.
* Code that raises an exception is embedded with `Option`: `none` is an
  uncaught Python exception (for example the `UnboundLocalError` raised
  by `TransformationDict.__getitem__` on an empty tuple).
-/

/-- Lookup in an association list, as Python `d[k]` / `k in d`. -/
def assocGet {κ β : Type} [DecidableEq κ] : List (κ × β) → κ → Option β
  | [], _ => none
  | (k', v') :: rest, k => if k' = k then some v' else assocGet rest k

/-- Assignment `d[k] = v` on an association list: overwrite in place if the
key is present (keeping its position, as CPython dicts do), otherwise append
the new key at the end. -/
def assocSet {κ β : Type} [DecidableEq κ] : List (κ × β) → κ → β → List (κ × β)
  | [], k, v => [(k, v)]
  | (k', v') :: rest, k, v =>
    if k' = k then (k', v) :: rest else (k', v') :: assocSet rest k v

theorem assocGet_assocSet_self {κ β : Type} [DecidableEq κ]
    (l : List (κ × β)) (k : κ) (v : β) : assocGet (assocSet l k v) k = some v := by
  induction l with
  | nil => simp [assocGet, assocSet]
  | cons hd tl ih =>
    obtain ⟨k', v'⟩ := hd
    by_cases h : k' = k <;> simp [assocGet, assocSet, h, ih]

theorem assocGet_assocSet_ne {κ β : Type} [DecidableEq κ]
    (l : List (κ × β)) (k k' : κ) (v : β) (h : k' ≠ k) :
    assocGet (assocSet l k v) k' = assocGet l k' := by
  induction l with
  | nil => simp [assocGet, assocSet, Ne.symm h]
  | cons hd tl ih =>
    obtain ⟨k₀, v₀⟩ := hd
    by_cases h₀ : k₀ = k
    · subst h₀
      simp [assocGet, assocSet, Ne.symm h]
    · by_cases h₁ : k₀ = k' <;> simp [assocGet, assocSet, h₀, h₁, ih, h]

theorem assocGet_append_single_ne {κ β : Type} [DecidableEq κ]
    (l : List (κ × β)) (k k' : κ) (v : β) (h : k' ≠ k) :
    assocGet (l ++ [(k, v)]) k' = assocGet l k' := by
  induction l with
  | nil => simp [assocGet, Ne.symm h]
  | cons hd tl ih =>
    obtain ⟨k₀, v₀⟩ := hd
    by_cases h₁ : k₀ = k' <;> simp [assocGet, h₁, ih]

theorem assocGet_append_single_self {κ β : Type} [DecidableEq κ]
    (l : List (κ × β)) (k : κ) (v : β) (h : assocGet l k = none) :
    assocGet (l ++ [(k, v)]) k = some v := by
  induction l with
  | nil => simp [assocGet]
  | cons hd tl ih =>
    obtain ⟨k₀, v₀⟩ := hd
    by_cases h₁ : k₀ = k
    · simp [assocGet, h₁] at h
    · simp [assocGet, h₁] at h ⊢
      exact ih h

/-- The recursive trie underlying `TransformationDict`: in the source, "each key
in self is a token, and each value is a tuple (set, dict)".  A node is the
insertion-ordered association list of its children; the value attached to a
token is the pair (rule set for the path ending here, child node).
-/
inductive Trie : Type where
  | mk : List (String × (List (List String) × Trie)) → Trie

/-- The children of a node, i.e. the underlying dictionary items. -/
def Trie.children : Trie → List (String × (List (List String) × Trie))
  | .mk cs => cs

@[simp] theorem Trie.children_mk (cs : List (String × (List (List String) × Trie))) :
    (Trie.mk cs).children = cs := rfl

/-- The `set.add` on an embedded rule set: append only if absent. -/
def insertRhs (rs : List (List String)) (rhs : List String) : List (List String) :=
  if rhs ∈ rs then rs else rs ++ [rhs]

/-- The trie-descending part of `TransformationDict.add` (ppdb.py lines 42-68,
without the `self.index` updates, which live on the root object and are
embedded separately): walk `lhs`, creating child nodes where absent, and add
`rhs` to the rule set of the node reached by the full `lhs`.  An empty `lhs`
is a no-op (`if len(lhs) == 0: return`).
-/
def Trie.getItemTok (t : Trie) (tok : String) : List (List String) × Trie :=
  (assocGet t.children tok).getD ([], .mk [])

/-- The trie-descending part of `TransformationDict.add` (ppdb.py lines 42-68,
without the `self.index` updates, which live on the root object and are
embedded separately): walk `lhs`, creating child nodes where absent
(`d[token] = (rule_set, new_d)`), and add `rhs` to the rule set of the node
reached by the full `lhs` (`rule_set.add(rhs)`).  An empty `lhs` is a no-op
(`if len(lhs) == 0: return`).  `Trie.getItemTok` is the existing pair
`d[token]` when the token is present, and the fresh
`(set(), TransformationDict())` otherwise.
-/
def Trie.add : Trie → List String → List String → Trie
  | t, [], _ => t
  | t, [tok], rhs =>
    .mk (assocSet t.children tok (insertRhs (t.getItemTok tok).1 rhs, (t.getItemTok tok).2))
  | t, tok :: rest, rhs =>
    .mk (assocSet t.children tok ((t.getItemTok tok).1, (t.getItemTok tok).2.add rest rhs))

/-- The `TransformationDict.__getitem__` restricted to the tuple/list branch
(ppdb.py lines 131-138): walk `lhs`; if some token is absent return the
empty pair `(set(), TransformationDict())`; if the walk completes return the
stored pair.  On the empty sequence the source executes `return rule_set, d`
with `rule_set` never assigned, raising `UnboundLocalError`; this is the
`none` case of the embedding.  `Trie.getItemTok` above is the string branch
of `__getitem__` (lines 126-129), used by `add` and
`find_partial_expression` for single-token lookups.
-/
def Trie.getItem : Trie → List String → Option (List (List String) × Trie)
  | _, [] => none
  | t, tok :: rest =>
    match assocGet t.children tok with
    | none => some ([], .mk [])
    | some pr =>
      match rest with
      | [] => some pr
      | _ :: _ => pr.2.getItem rest

/-- One middle-token index record of `TransformationDict.add` (lines 60-65):
for each strictly interior position `i` of `lhs` (`0 < i < len(lhs) - 1`)
the pair `(tuple(lhs[:i]), tuple(lhs[i+1:]))` is recorded under `lhs[i]`,
in ascending order of `i`.
-/
def middleEntries (lhs : List String) : List (String × (List String × List String)) :=
  (List.range lhs.length).filterMap fun i =>
    if 0 < i ∧ i + 1 < lhs.length then
      some (lhs.getD i "", (lhs.take i, lhs.drop (i + 1)))
    else none

/-- The `self.index` update for one interior token: create the set if the
token is new (`self.index[token] = set()`), then `set.add` the context pair. -/
def indexAdd (ix : List (String × List (List String × List String)))
    (tok : String) (pr : List String × List String) :
    List (String × List (List String × List String)) :=
  match assocGet ix tok with
  | none => ix ++ [(tok, [pr])]
  | some l => assocSet ix tok (if pr ∈ l then l else l ++ [pr])

/-- The root object of the source: a `TransformationDict` is simultaneously the
root trie node and the holder of `self.index`, the middle-token index.
(Nested `TransformationDict`s created during `add` also carry an `index`
field, but it is never written nor read on non-root nodes, so the embedding
keeps the single root index.)
-/
structure TransformationDict : Type where
  trie : Trie
  index : List (String × List (List String × List String))

/-- A freshly constructed `TransformationDict()`. -/
def TransformationDict.empty : TransformationDict := ⟨.mk [], []⟩

/-- The `TransformationDict.add` (ppdb.py lines 35-68): descend/extend the trie,
record the middle-token index entries for the strictly interior positions of
`lhs` (in ascending position order), and add `rhs` to the rule set at the
final node.  Empty `lhs` is a silent no-op. -/
def TransformationDict.add (td : TransformationDict) (lhs rhs : List String) :
    TransformationDict :=
  if lhs = [] then td
  else
    { trie := td.trie.add lhs rhs
      index := (middleEntries lhs).foldl (fun ix e => indexAdd ix e.1 e.2) td.index }

/-- The `TransformationDict.get_rhs` (lines 116-123): `return self[lhs][0]`.
`none` is the `UnboundLocalError` raised on `lhs = ()`. -/
def TransformationDict.get_rhs (td : TransformationDict) (lhs : List String) :
    Option (List (List String)) :=
  (td.trie.getItem lhs).map Prod.fst

/-- The `TransformationDict.get_subdict` (lines 140-144): `return self[lhs][1]`. -/
def TransformationDict.get_subdict (td : TransformationDict) (lhs : List String) :
    Option Trie :=
  (td.trie.getItem lhs).map Prod.snd

/-- Build a dictionary by a sequence of `add` calls starting from a fresh
`TransformationDict()`, as the loader does one rule at a time. -/
def buildTD (rules : List (List String × List String)) : TransformationDict :=
  rules.foldl (fun td r => td.add r.1 r.2) TransformationDict.empty

/-- Membership of `r` in the rule set returned by `get_rhs td lhs`. -/
def TransformationDict.memRhs (td : TransformationDict) (lhs r : List String) : Prop :=
  ∃ S, td.get_rhs lhs = some S ∧ r ∈ S

theorem insertRhs_self (rs : List (List String)) (r : List String) : r ∈ insertRhs rs r := by
  by_cases h : r ∈ rs <;> simp [insertRhs, h]

theorem insertRhs_mono {rs : List (List String)} {x : List String} (h : x ∈ rs)
    (r : List String) : x ∈ insertRhs rs r := by
  by_cases hr : r ∈ rs <;> simp [insertRhs, hr, h]

theorem Trie.getItem_nil_trie {lhs : List String} (h : lhs ≠ []) :
    (Trie.mk []).getItem lhs = some ([], .mk []) := by
  cases lhs with
  | nil => exact absurd rfl h
  | cons a ls => rfl


instance : Inhabited Trie := ⟨.mk []⟩

theorem Trie.getItem_cons_none {t : Trie} {tok : String} {rest : List String}
    (h : assocGet t.children tok = none) :
    t.getItem (tok :: rest) = some ([], .mk []) := by
  simp [Trie.getItem, h]

theorem Trie.getItem_single_some {t : Trie} {tok : String} {pr : List (List String) × Trie}
    (h : assocGet t.children tok = some pr) : t.getItem [tok] = some pr := by
  simp [Trie.getItem, h]

theorem Trie.getItem_cons₂_some {t : Trie} {tok : String} {pr : List (List String) × Trie}
    {r : String} {rs : List String} (h : assocGet t.children tok = some pr) :
    t.getItem (tok :: r :: rs) = pr.2.getItem (r :: rs) := by
  simp [Trie.getItem, h]

theorem Trie.add_single (t : Trie) (tok : String) (rhs : List String) :
    t.add [tok] rhs =
      .mk (assocSet t.children tok (insertRhs (t.getItemTok tok).1 rhs, (t.getItemTok tok).2)) :=
  rfl

theorem Trie.add_cons₂ (t : Trie) (tok r : String) (rs rhs : List String) :
    t.add (tok :: r :: rs) rhs =
      .mk (assocSet t.children tok
        ((t.getItemTok tok).1, (t.getItemTok tok).2.add (r :: rs) rhs)) :=
  rfl

/-- After `add` along `lhs`, the node reached by `lhs` holds the old rule set
with `rhs` inserted (the old rule set being empty whenever the path did not
fully exist before). -/
theorem Trie.getItem_fst_add_self (lhs : List String) :
    ∀ (t : Trie) (rhs : List String), lhs ≠ [] →
      ∃ S₀ c₀ c₁, t.getItem lhs = some (S₀, c₀) ∧
        (t.add lhs rhs).getItem lhs = some (insertRhs S₀ rhs, c₁) := by
  induction lhs with
  | nil => intro t rhs h; exact absurd rfl h
  | cons a ls ih =>
    intro t rhs _
    cases ls with
    | nil =>
      cases hget : assocGet t.children a with
      | none =>
        refine ⟨[], .mk [], (t.getItemTok a).2, ?_, ?_⟩
        · exact Trie.getItem_cons_none hget
        · rw [Trie.add_single, Trie.getItem_single_some
            (by simpa using assocGet_assocSet_self t.children a _)]
          simp [Trie.getItemTok, hget]
      | some pr =>
        refine ⟨pr.1, pr.2, (t.getItemTok a).2, ?_, ?_⟩
        · rw [Trie.getItem_single_some hget]
        · rw [Trie.add_single, Trie.getItem_single_some
            (by simpa using assocGet_assocSet_self t.children a _)]
          simp [Trie.getItemTok, hget]
    | cons b ls' =>
      cases hget : assocGet t.children a with
      | none =>
        have htok : t.getItemTok a = ([], Trie.mk []) := by simp [Trie.getItemTok, hget]
        obtain ⟨S₀, c₀, c₁, hold, hnew⟩ := ih (Trie.mk []) rhs (by simp)
        rw [Trie.getItem_nil_trie (by simp)] at hold
        obtain ⟨hS₀, hc₀⟩ := Prod.mk.injEq _ _ _ _ ▸ Option.some.inj hold
        refine ⟨[], .mk [], c₁, ?_, ?_⟩
        · exact Trie.getItem_cons_none hget
        · rw [Trie.add_cons₂, Trie.getItem_cons₂_some
            (by simpa using assocGet_assocSet_self t.children a _)]
          rw [htok]
          simpa [← hS₀] using hnew
      | some pr =>
        obtain ⟨S₀, c₀, c₁, hold, hnew⟩ := ih pr.2 rhs (by simp)
        have htok : t.getItemTok a = pr := by simp [Trie.getItemTok, hget]
        refine ⟨S₀, c₀, c₁, ?_, ?_⟩
        · rw [Trie.getItem_cons₂_some hget, hold]
        · rw [Trie.add_cons₂, Trie.getItem_cons₂_some
            (by simpa using assocGet_assocSet_self t.children a _)]
          rw [htok]
          exact hnew

/-- The `add` along `lhs'` does not change the rule set visible at any other
path `lhs`. -/
theorem Trie.getItem_fst_add_ne (lhs : List String) :
    ∀ (t : Trie) (lhs' rhs : List String), lhs ≠ lhs' →
      ((t.add lhs' rhs).getItem lhs).map Prod.fst = (t.getItem lhs).map Prod.fst := by
  induction lhs with
  | nil =>
    intro t lhs' rhs _
    simp [Trie.getItem]
  | cons a ls ih =>
    intro t lhs' rhs hne
    cases lhs' with
    | nil => rfl
    | cons b ls' =>
      by_cases hab : a = b
      · subst hab
        cases hget : assocGet t.children a with
        | none =>
          have htok : t.getItemTok a = ([], Trie.mk []) := by simp [Trie.getItemTok, hget]
          cases ls' with
          | nil =>
            have hls : ls ≠ [] := by rintro rfl; exact hne rfl
            cases ls with
            | nil => exact absurd rfl hls
            | cons d ls₂ =>
              rw [Trie.add_single, Trie.getItem_cons₂_some
                (by simpa using assocGet_assocSet_self t.children a _)]
              rw [htok, Trie.getItem_cons_none hget,
                Trie.getItem_nil_trie (List.cons_ne_nil d ls₂)]
          | cons c ls'' =>
            have hlsne : ls ≠ c :: ls'' := by
              intro hh; exact hne (by rw [hh])
            cases ls with
            | nil =>
              rw [Trie.add_cons₂, Trie.getItem_single_some
                (by simpa using assocGet_assocSet_self t.children a _)]
              rw [htok, Trie.getItem_cons_none hget]
              rfl
            | cons d ls₂ =>
              rw [Trie.add_cons₂, Trie.getItem_cons₂_some
                (by simpa using assocGet_assocSet_self t.children a _)]
              rw [htok, Trie.getItem_cons_none hget]
              have := ih (Trie.mk []) (c :: ls'') rhs hlsne
              rw [this, Trie.getItem_nil_trie (List.cons_ne_nil d ls₂)]
        | some pr =>
          have htok : t.getItemTok a = pr := by simp [Trie.getItemTok, hget]
          cases ls' with
          | nil =>
            have hls : ls ≠ [] := by rintro rfl; exact hne rfl
            cases ls with
            | nil => exact absurd rfl hls
            | cons d ls₂ =>
              rw [Trie.add_single, Trie.getItem_cons₂_some
                (by simpa using assocGet_assocSet_self t.children a _)]
              rw [htok, Trie.getItem_cons₂_some hget]
          | cons c ls'' =>
            have hlsne : ls ≠ c :: ls'' := by
              intro hh; exact hne (by rw [hh])
            cases ls with
            | nil =>
              rw [Trie.add_cons₂, Trie.getItem_single_some
                (by simpa using assocGet_assocSet_self t.children a _)]
              rw [htok, Trie.getItem_single_some hget]
              simp
            | cons d ls₂ =>
              rw [Trie.add_cons₂, Trie.getItem_cons₂_some
                (by simpa using assocGet_assocSet_self t.children a _)]
              rw [htok, Trie.getItem_cons₂_some hget]
              exact ih pr.2 (c :: ls'') rhs hlsne
      · have hget : ∀ v, assocGet (assocSet t.children b v) a = assocGet t.children a :=
          fun v => assocGet_assocSet_ne t.children b a v hab
        have key : ∀ v, ((Trie.mk (assocSet t.children b v)).getItem (a :: ls)).map Prod.fst
            = (t.getItem (a :: ls)).map Prod.fst := by
          intro v
          cases hg : assocGet t.children a with
          | none => rw [Trie.getItem_cons_none (by rw [Trie.children_mk, hget, hg]),
              Trie.getItem_cons_none hg]
          | some pr =>
            cases ls with
            | nil => rw [Trie.getItem_single_some (by rw [Trie.children_mk, hget, hg]),
                Trie.getItem_single_some hg]
            | cons d ls₂ => rw [Trie.getItem_cons₂_some (by rw [Trie.children_mk, hget, hg]),
                Trie.getItem_cons₂_some hg]
        cases ls' with
        | nil => rw [Trie.add_single]; exact key _
        | cons c ls'' => rw [Trie.add_cons₂]; exact key _

theorem TransformationDict.add_nil (td : TransformationDict) (rhs : List String) :
    td.add [] rhs = td := by
  simp [TransformationDict.add]

theorem TransformationDict.get_rhs_add_self (td : TransformationDict) (lhs rhs : List String)
    (h : lhs ≠ []) :
    ∃ S₀, td.get_rhs lhs = some S₀ ∧
      (td.add lhs rhs).get_rhs lhs = some (insertRhs S₀ rhs) := by
  obtain ⟨S₀, c₀, c₁, hold, hnew⟩ := Trie.getItem_fst_add_self lhs td.trie rhs h
  refine ⟨S₀, ?_, ?_⟩
  · simp [TransformationDict.get_rhs, hold]
  · simp [TransformationDict.add, h, TransformationDict.get_rhs, hnew]

theorem TransformationDict.get_rhs_add_ne (td : TransformationDict)
    (lhs lhs' rhs : List String) (h : lhs ≠ lhs') :
    (td.add lhs' rhs).get_rhs lhs = td.get_rhs lhs := by
  by_cases h0 : lhs' = []
  · subst h0; simp [TransformationDict.add]
  · simp only [TransformationDict.add, h0, if_neg h0, TransformationDict.get_rhs]
    exact Trie.getItem_fst_add_ne lhs td.trie lhs' rhs h

theorem TransformationDict.get_rhs_empty {lhs : List String} (h : lhs ≠ []) :
    TransformationDict.empty.get_rhs lhs = some [] := by
  simp [TransformationDict.empty, TransformationDict.get_rhs, Trie.getItem_nil_trie h]

theorem get_rhs_foldl_ne (rules : List (List String × List String)) :
    ∀ (td : TransformationDict) (lhs : List String), (∀ r ∈ rules, r.1 ≠ lhs) →
      (rules.foldl (fun td r => td.add r.1 r.2) td).get_rhs lhs = td.get_rhs lhs := by
  induction rules with
  | nil => intro td lhs _; rfl
  | cons r rest ih =>
    intro td lhs h
    rw [List.foldl_cons, ih _ _ (fun x hx => h x (List.mem_cons_of_mem _ hx))]
    exact TransformationDict.get_rhs_add_ne td lhs r.1 r.2 (Ne.symm (h r (List.mem_cons_self _ _)))

theorem TransformationDict.memRhs_add_mono (td : TransformationDict)
    (lhs rhs l r : List String) (h : td.memRhs l r) : (td.add lhs rhs).memRhs l r := by
  obtain ⟨S, hS, hr⟩ := h
  by_cases h0 : lhs = []
  · subst h0
    exact ⟨S, by rw [TransformationDict.add_nil]; exact hS, hr⟩
  by_cases hl : l = lhs
  · subst hl
    obtain ⟨S₀, hold, hnew⟩ := TransformationDict.get_rhs_add_self td l rhs h0
    have hSS : S₀ = S := by rw [hold] at hS; exact Option.some.inj hS
    exact ⟨insertRhs S₀ rhs, hnew, insertRhs_mono (show r ∈ S₀ from hSS.symm ▸ hr) rhs⟩
  · exact ⟨S, by rw [TransformationDict.get_rhs_add_ne td l lhs rhs hl]; exact hS, hr⟩

/-- Membership of a context pair under a token in the middle-token index:
`pr in self.index[tok]` (with the empty set when `tok not in self.index`). -/
def inIndex (ix : List (String × List (List String × List String)))
    (tok : String) (pr : List String × List String) : Prop :=
  pr ∈ (assocGet ix tok).getD []

theorem inIndex_indexAdd (ix : List (String × List (List String × List String)))
    (t : String) (p : List String × List String) (t' : String) (p' : List String × List String) :
    inIndex (indexAdd ix t p) t' p' ↔ inIndex ix t' p' ∨ (t' = t ∧ p' = p) := by
  unfold indexAdd inIndex
  by_cases ht : t' = t
  · subst ht
    cases hg : assocGet ix t' with
    | none =>
      rw [assocGet_append_single_self _ _ _ hg]
      simp
    | some l =>
      rw [assocGet_assocSet_self]
      by_cases hp : p ∈ l
      · simp only [if_pos hp, Option.getD_some, hg]
        constructor
        · exact fun h => Or.inl h
        · rintro (h | ⟨-, rfl⟩)
          · exact h
          · exact hp
      · simp [if_neg hp, hg]
  · cases hg : assocGet ix t with
    | none => rw [assocGet_append_single_ne _ _ _ _ ht]; simp [ht]
    | some l => rw [assocGet_assocSet_ne _ _ _ _ ht]; simp [ht]

theorem inIndex_foldl (entries : List (String × (List String × List String))) :
    ∀ (ix : List (String × List (List String × List String))) (t' : String)
      (p' : List String × List String),
      inIndex (entries.foldl (fun ix e => indexAdd ix e.1 e.2) ix) t' p' ↔
        inIndex ix t' p' ∨ (t', p') ∈ entries := by
  induction entries with
  | nil => simp
  | cons e rest ih =>
    intro ix t' p'
    rw [List.foldl_cons, ih, inIndex_indexAdd]
    simp only [List.mem_cons, Prod.ext_iff]
    tauto

theorem mem_middleEntries (lhs : List String) (t : String) (p : List String × List String) :
    (t, p) ∈ middleEntries lhs ↔
      ∃ i, 0 < i ∧ i + 1 < lhs.length ∧ t = lhs.getD i "" ∧
        p = (lhs.take i, lhs.drop (i + 1)) := by
  unfold middleEntries
  rw [List.mem_filterMap]
  constructor
  · rintro ⟨i, hi, hif⟩
    rw [List.mem_range] at hi
    by_cases hc : 0 < i ∧ i + 1 < lhs.length
    · rw [if_pos hc] at hif
      obtain ⟨h1, h2⟩ := Prod.mk.injEq _ _ _ _ ▸ Option.some.inj hif
      exact ⟨i, hc.1, hc.2, h1.symm, h2.symm⟩
    · rw [if_neg hc] at hif; cases hif
  · rintro ⟨i, h1, h2, rfl, rfl⟩
    refine ⟨i, List.mem_range.mpr (by omega), ?_⟩
    rw [if_pos ⟨h1, h2⟩]

/-- Exact description of the middle-token index after one `add`: the new
index relates a token to a context pair iff the old one did, or the token
occurs at a strictly interior position `i` of `lhs` with that context pair.
In particular a token occurring only first or only last in `lhs` gets no
entry from this insertion. -/
theorem TransformationDict.inIndex_add (td : TransformationDict)
    (lhs rhs : List String) (tok : String) (pr : List String × List String) :
    inIndex (td.add lhs rhs).index tok pr ↔
      inIndex td.index tok pr ∨
        ∃ i, 0 < i ∧ i + 1 < lhs.length ∧ tok = lhs.getD i "" ∧
          pr = (lhs.take i, lhs.drop (i + 1)) := by
  by_cases h0 : lhs = []
  · subst h0
    simp [TransformationDict.add]
  · simp only [TransformationDict.add, if_neg h0]
    rw [inIndex_foldl, mem_middleEntries]

theorem TransformationDict.index_add_after_ne (td : TransformationDict)
    (lhs rhs : List String)
    (h : ∀ tok b a, inIndex td.index tok (b, a) → a ≠ [] ∧ b ≠ []) :
    ∀ tok b a, inIndex (td.add lhs rhs).index tok (b, a) → a ≠ [] ∧ b ≠ [] := by
  intro tok b a hmem
  rw [TransformationDict.inIndex_add] at hmem
  rcases hmem with hmem | ⟨i, hi0, hi1, -, hpr⟩
  · exact h tok b a hmem
  · obtain ⟨rfl, rfl⟩ := Prod.mk.injEq _ _ _ _ ▸ hpr
    constructor
    · have : (lhs.drop (i + 1)).length = lhs.length - (i + 1) := List.length_drop _ _
      intro hnil
      rw [hnil] at this
      simp at this
      omega
    · have : (lhs.take i).length = min i lhs.length := List.length_take _ _
      intro hnil
      rw [hnil] at this
      simp at this
      omega

/-- In any dictionary built by a sequence of `add` calls, every recorded
context pair has a non-empty `before` and a non-empty `after` component
(the indexed position is neither first nor last). -/
theorem buildTD_index_after_ne (rules : List (List String × List String)) :
    ∀ tok b a, inIndex (buildTD rules).index tok (b, a) → a ≠ [] ∧ b ≠ [] := by
  have main : ∀ (rs : List (List String × List String)) (td : TransformationDict),
      (∀ tok b a, inIndex td.index tok (b, a) → a ≠ [] ∧ b ≠ []) →
      ∀ tok b a,
        inIndex (rs.foldl (fun td r => td.add r.1 r.2) td).index tok (b, a) → a ≠ [] ∧ b ≠ [] := by
    intro rs
    induction rs with
    | nil => intro td h; exact h
    | cons r rest ih =>
      intro td h
      rw [List.foldl_cons]
      exact ih _ (TransformationDict.index_add_after_ne td r.1 r.2 h)
  exact main rules TransformationDict.empty (by intro tok b a h; simp [TransformationDict.empty, inIndex, assocGet] at h)

mutual
/-- The nested helper `find_all_paths(d)` of `find_partial_expression`
(ppdb.py lines 85-95): for each key of `d` (in dictionary order), prepend
the key to every path found under it, or emit the single path `[key]` when
the recursion below the key found no paths. -/
def Trie.find_all_paths : Trie → List (List String)
  | .mk cs => fapChildren cs

/-- The `for key in d` loop body of `find_all_paths`. -/
def fapChildren : List (String × (List (List String) × Trie)) → List (List String)
  | [] => []
  | (k, pr) :: rest =>
    (if (Trie.find_all_paths pr.2).map (fun pth => k :: pth) = []
     then [[k]]
     else (Trie.find_all_paths pr.2).map (fun pth => k :: pth)) ++ fapChildren rest
end

/-- The candidate test of `find_partial_expression` (ppdb.py line 100):
`tail[:len(sought_lhs_tail) + 1] == sought_lhs_tail`, where `tail` is the
`after` component of a recorded context pair. -/
def candidateFilter (after tl : List String) : Bool :=
  decide (after.take (tl.length + 1) = tl)

/-- The `TransformationDict.find_partial_expression` (ppdb.py lines 70-114):
`first_token = partial[0]` (an empty `partial` raises `IndexError`: `none`);
if `first_token not in self.index` return `[]`; filter the recorded context
pairs with `candidateFilter`, and for each accepted head descend
`self[lhs_head][1][first_token][1]` then each token of the tail, and emit
one `(lhs_head, context_after)` pair per path found by `find_all_paths`.
The iteration order over the Python set `self.index[first_token]` is fixed
to insertion order by the embedding.
-/
def TransformationDict.findPartialExpression (td : TransformationDict) :
    List String → Option (List (List String × List String))
  | [] => none
  | first :: tl =>
    match assocGet td.index first with
    | none => some []
    | some pairs =>
      let heads := pairs.filterMap fun pr => if candidateFilter pr.2 tl then some pr.1 else none
      heads.foldl (fun acc head =>
        match acc with
        | none => none
        | some cs =>
          match td.trie.getItem head with
          | none => none
          | some hpr =>
            some (cs ++ (((tl.foldl (fun dd tok => (dd.getItemTok tok).2)
                ((hpr.2.getItemTok first).2)).find_all_paths).map
              (fun cont => (head, cont))))) (some [])

/-- Follow a token path downward through child nodes; `none` if some token
on the way has no child node. -/
def Trie.descendPath : Trie → List String → Option Trie
  | t, [] => some t
  | t, k :: ps =>
    match assocGet t.children k with
    | none => none
    | some pr => pr.2.descendPath ps

mutual
/-- Well-formedness of a trie as a Python nested dict: at every node the
keys are pairwise distinct (a Python dict cannot hold a duplicate key). -/
def Trie.wfb : Trie → Bool
  | .mk cs => decide ((cs.map Prod.fst).Nodup) && wfbChildren cs

def wfbChildren : List (String × (List (List String) × Trie)) → Bool
  | [] => true
  | (_, pr) :: rest => Trie.wfb pr.2 && wfbChildren rest
end

theorem assocGet_mem {κ β : Type} [DecidableEq κ] (cs : List (κ × β)) (k : κ) (v : β)
    (h : assocGet cs k = some v) : (k, v) ∈ cs := by
  induction cs with
  | nil => cases h
  | cons e rest ih =>
    obtain ⟨k₀, v₀⟩ := e
    by_cases hk : k₀ = k
    · subst hk
      simp [assocGet] at h
      subst h
      exact List.mem_cons_self _ _
    · simp [assocGet, hk] at h
      exact List.mem_cons_of_mem _ (ih h)

theorem mem_assocGet_of_nodup {κ β : Type} [DecidableEq κ] (cs : List (κ × β)) (k : κ) (v : β)
    (hnd : (cs.map Prod.fst).Nodup) (h : (k, v) ∈ cs) : assocGet cs k = some v := by
  induction cs with
  | nil => cases h
  | cons e rest ih =>
    obtain ⟨k₀, v₀⟩ := e
    rw [List.map_cons, List.nodup_cons] at hnd
    rcases List.mem_cons.mp h with he | he
    · obtain ⟨rfl, rfl⟩ := Prod.mk.injEq _ _ _ _ ▸ he
      simp [assocGet]
    · have hk : k₀ ≠ k := by
        rintro rfl
        exact hnd.1 (List.mem_map.mpr ⟨(k₀, v), he, rfl⟩)
      simp [assocGet, hk]
      exact ih hnd.2 he

theorem wfbChildren_mem (cs : List (String × (List (List String) × Trie)))
    (hw : wfbChildren cs = true) {k : String} {pr : List (List String) × Trie}
    (h : (k, pr) ∈ cs) : pr.2.wfb = true := by
  induction cs with
  | nil => cases h
  | cons e rest ih =>
    obtain ⟨k₀, pr₀⟩ := e
    rw [wfbChildren, Bool.and_eq_true] at hw
    rcases List.mem_cons.mp h with he | he
    · obtain ⟨rfl, rfl⟩ := Prod.mk.injEq _ _ _ _ ▸ he
      exact hw.1
    · exact ih hw.2 he

theorem fapChildren_eq_nil_iff (cs : List (String × (List (List String) × Trie))) :
    fapChildren cs = [] ↔ cs = [] := by
  cases cs with
  | nil => simp [fapChildren]
  | cons e rest =>
    obtain ⟨k, pr⟩ := e
    rw [fapChildren]
    by_cases hsub : (Trie.find_all_paths pr.2).map (fun pth => k :: pth) = [] <;>
      simp [hsub]

theorem mem_fapChildren (cs : List (String × (List (List String) × Trie)))
    (p : List String) :
    p ∈ fapChildren cs ↔ ∃ k pr, (k, pr) ∈ cs ∧
      ((Trie.find_all_paths pr.2 = [] ∧ p = [k]) ∨
       ∃ p', p = k :: p' ∧ p' ∈ Trie.find_all_paths pr.2) := by
  induction cs with
  | nil => simp [fapChildren]
  | cons e rest ih =>
    obtain ⟨k, pr⟩ := e
    rw [fapChildren, List.mem_append, ih]
    by_cases hsub : Trie.find_all_paths pr.2 = []
    · rw [if_pos (by rw [hsub]; rfl)]
      constructor
      · rintro (hp | ⟨k', pr', hm, hc⟩)
        · simp at hp
          exact ⟨k, pr, List.mem_cons_self _ _, Or.inl ⟨hsub, hp⟩⟩
        · exact ⟨k', pr', List.mem_cons_of_mem _ hm, hc⟩
      · rintro ⟨k', pr', hm, hc⟩
        rcases List.mem_cons.mp hm with he | he
        · obtain ⟨rfl, rfl⟩ := Prod.mk.injEq _ _ _ _ ▸ he
          rcases hc with ⟨-, rfl⟩ | ⟨p', -, hp'⟩
          · simp
          · rw [hsub] at hp'; cases hp'
        · exact Or.inr ⟨k', pr', he, hc⟩
    · rw [if_neg (by simpa using hsub)]
      constructor
      · rintro (hp | ⟨k', pr', hm, hc⟩)
        · obtain ⟨p', hp', rfl⟩ := List.mem_map.mp hp
          exact ⟨k, pr, List.mem_cons_self _ _, Or.inr ⟨p', rfl, hp'⟩⟩
        · exact ⟨k', pr', List.mem_cons_of_mem _ hm, hc⟩
      · rintro ⟨k', pr', hm, hc⟩
        rcases List.mem_cons.mp hm with he | he
        · obtain ⟨rfl, rfl⟩ := Prod.mk.injEq _ _ _ _ ▸ he
          rcases hc with ⟨h0, -⟩ | ⟨p', rfl, hp'⟩
          · exact absurd h0 hsub
          · exact Or.inl (List.mem_map.mpr ⟨p', hp', rfl⟩)
        · exact Or.inr ⟨k', pr', he, hc⟩

theorem Trie.find_all_paths_mk (cs : List (String × (List (List String) × Trie))) :
    (Trie.mk cs).find_all_paths = fapChildren cs := rfl

theorem Trie.find_all_paths_eq_nil_iff (t : Trie) :
    t.find_all_paths = [] ↔ t.children = [] := by
  obtain ⟨cs⟩ := t
  rw [Trie.find_all_paths_mk, Trie.children_mk, fapChildren_eq_nil_iff]

/-- On a well-formed trie, `find_all_paths` returns exactly the non-empty
token paths that lead from the node to a childless node (i.e. the maximal
downward paths); in particular a childless node yields no path at all, not
a zero-length one. -/
theorem find_all_paths_char (N : Nat) :
    ∀ (t : Trie), sizeOf t ≤ N → t.wfb = true → ∀ (p : List String),
      (p ∈ t.find_all_paths ↔
        p ≠ [] ∧ ∃ t', t.descendPath p = some t' ∧ t'.children = []) := by
  induction N with
  | zero =>
    intro t ht
    obtain ⟨cs⟩ := t
    rw [Trie.mk.sizeOf_spec] at ht
    omega
  | succ n ihN =>
    intro t ht hwf p
    obtain ⟨cs⟩ := t
    rw [Trie.wfb, Bool.and_eq_true, decide_eq_true_iff] at hwf
    rw [Trie.find_all_paths_mk, mem_fapChildren]
    have hsize : ∀ {k : String} {pr : List (List String) × Trie}, (k, pr) ∈ cs →
        sizeOf pr.2 ≤ n := by
      intro k pr hm
      have h1 := List.sizeOf_lt_of_mem hm
      have h2 : sizeOf (Trie.mk cs) = 1 + sizeOf cs := Trie.mk.sizeOf_spec cs
      obtain ⟨rs, c⟩ := pr
      simp [Prod.mk.sizeOf_spec] at h1 ⊢
      omega
    constructor
    · rintro ⟨k, pr, hmem, hcase⟩
      have hget : assocGet cs k = some pr := mem_assocGet_of_nodup cs k pr hwf.1 hmem
      rcases hcase with ⟨hfap, rfl⟩ | ⟨p', rfl, hp'⟩
      · refine ⟨by simp, pr.2, ?_, ?_⟩
        · simp [Trie.descendPath, hget]
        · exact (Trie.find_all_paths_eq_nil_iff pr.2).mp hfap
      · have hwf' : pr.2.wfb = true := wfbChildren_mem cs hwf.2 hmem
        obtain ⟨hne, t', hdesc, hleaf⟩ := (ihN pr.2 (hsize hmem) hwf' p').mp hp'
        refine ⟨by simp, t', ?_, hleaf⟩
        simp [Trie.descendPath, hget, hdesc]
    · rintro ⟨hne, t', hdesc, hleaf⟩
      cases p with
      | nil => exact absurd rfl hne
      | cons k p' =>
        rw [Trie.descendPath, Trie.children_mk] at hdesc
        cases hget : assocGet cs k with
        | none => simp [hget] at hdesc
        | some pr =>
          simp only [hget] at hdesc
          have hmem : (k, pr) ∈ cs := assocGet_mem cs k pr hget
          cases p' with
          | nil =>
            rw [Trie.descendPath] at hdesc
            obtain rfl : pr.2 = t' := Option.some.inj hdesc
            refine ⟨k, pr, hmem, Or.inl ⟨?_, rfl⟩⟩
            exact (Trie.find_all_paths_eq_nil_iff pr.2).mpr hleaf
          | cons q p'' =>
            have hwf' : pr.2.wfb = true := wfbChildren_mem cs hwf.2 hmem
            refine ⟨k, pr, hmem, Or.inr ⟨q :: p'', rfl, ?_⟩⟩
            exact (ihN pr.2 (hsize hmem) hwf' (q :: p'')).mpr ⟨by simp, t', hdesc, hleaf⟩

theorem candidateFilter_iff (after tl : List String) :
    candidateFilter after tl = true ↔ after = tl := by
  unfold candidateFilter
  rw [decide_eq_true_iff]
  constructor
  · intro h
    have hlen : (after.take (tl.length + 1)).length = tl.length := by rw [h]
    rw [List.length_take] at hlen
    have hle : after.length ≤ tl.length + 1 := by omega
    rw [List.take_of_length_le hle] at h
    exact h
  · rintro rfl
    exact List.take_of_length_le (by omega)

/-- On any dictionary built by `add` calls, a single-token partial query
returns the empty list: the candidate test compares the non-empty `after`
context against the empty tail, and never succeeds. -/
theorem findPartial_single_token (rules : List (List String × List String)) (first : String) :
    (buildTD rules).findPartialExpression [first] = some [] := by
  rw [TransformationDict.findPartialExpression]
  cases hg : assocGet (buildTD rules).index first with
  | none => rfl
  | some pairs =>
    have hheads : pairs.filterMap
        (fun pr => if candidateFilter pr.2 [] then some pr.1 else none) = [] := by
      rw [List.filterMap_eq_nil_iff]
      intro pr hpr
      have hmem : inIndex (buildTD rules).index first (pr.1, pr.2) := by
        unfold inIndex
        rw [hg]
        simpa using hpr
      have hne := (buildTD_index_after_ne rules first pr.1 pr.2 hmem).1
      have hfilt : candidateFilter pr.2 [] = false := by
        rw [Bool.eq_false_iff]
        intro hc
        exact hne ((candidateFilter_iff pr.2 []).mp hc)
      rw [hfilt]
      rfl
    simp only [hheads]
    rfl

theorem assocSet_get_self {κ β : Type} [DecidableEq κ] (l : List (κ × β)) (k : κ) (v : β)
    (h : assocGet l k = some v) : assocSet l k v = l := by
  induction l with
  | nil => cases h
  | cons e rest ih =>
    obtain ⟨k₀, v₀⟩ := e
    by_cases hk : k₀ = k
    · subst hk
      simp [assocGet] at h
      simp [assocSet, h]
    · simp [assocGet, hk] at h
      simp [assocSet, hk, ih h]

/-- State-passing embedding of the tuple branch of
`TransformationDict.__getitem__`: the traversal carries the trie through
every step and writes the (possibly modified) child back into the parent on
the way out, so that any mutation performed during lookup would surface in
the returned state.  The source performs no assignment during lookup, so
the write-back stores the child unchanged.
-/
def Trie.getItemS : Trie → List String → (Option (List (List String) × Trie)) × Trie
  | t, [] => (none, t)
  | t, tok :: rest =>
    match assocGet t.children tok with
    | none => (some ([], .mk []), t)
    | some pr =>
      match rest with
      | [] => (some pr, t)
      | _ :: _ =>
        ((pr.2.getItemS rest).1, .mk (assocSet t.children tok (pr.1, (pr.2.getItemS rest).2)))

theorem Trie.getItemS_cons_none {t : Trie} {tok : String} {rest : List String}
    (h : assocGet t.children tok = none) :
    t.getItemS (tok :: rest) = (some ([], .mk []), t) := by
  simp [Trie.getItemS, h]

theorem Trie.getItemS_single_some {t : Trie} {tok : String} {pr : List (List String) × Trie}
    (h : assocGet t.children tok = some pr) : t.getItemS [tok] = (some pr, t) := by
  simp [Trie.getItemS, h]

theorem Trie.getItemS_cons₂_some {t : Trie} {tok : String} {pr : List (List String) × Trie}
    {q : String} {qs : List String} (h : assocGet t.children tok = some pr) :
    t.getItemS (tok :: q :: qs) =
      ((pr.2.getItemS (q :: qs)).1,
        .mk (assocSet t.children tok (pr.1, (pr.2.getItemS (q :: qs)).2))) := by
  simp [Trie.getItemS, h]

theorem Trie.getItemS_eq (lhs : List String) : ∀ (t : Trie),
    t.getItemS lhs = (t.getItem lhs, t) := by
  induction lhs with
  | nil => intro t; rfl
  | cons tok rest ih =>
    intro t
    obtain ⟨cs⟩ := t
    cases hget : assocGet (Trie.mk cs).children tok with
    | none => rw [Trie.getItemS_cons_none hget, Trie.getItem_cons_none hget]
    | some pr =>
      cases rest with
      | nil => rw [Trie.getItemS_single_some hget, Trie.getItem_single_some hget]
      | cons q qs =>
        rw [Trie.getItemS_cons₂_some hget, Trie.getItem_cons₂_some hget, ih]
        rw [Trie.children_mk] at hget ⊢
        rw [assocSet_get_self cs tok (pr.1, pr.2) (by exact hget)]

/-- State-passing `get_rhs`. -/
def TransformationDict.get_rhsS (td : TransformationDict) (lhs : List String) :
    Option (List (List String)) × TransformationDict :=
  ((td.trie.getItemS lhs).1.map Prod.fst, { td with trie := (td.trie.getItemS lhs).2 })

/-- State-passing `get_subdict`. -/
def TransformationDict.get_subdictS (td : TransformationDict) (lhs : List String) :
    Option Trie × TransformationDict :=
  ((td.trie.getItemS lhs).1.map Prod.snd, { td with trie := (td.trie.getItemS lhs).2 })

/-- State-passing `find_partial_expression`: the trie state is threaded
through every `self[lhs_head]` lookup of the loop. -/
def TransformationDict.findPartialExpressionS (td : TransformationDict) :
    List String → Option (List (List String × List String)) × TransformationDict
  | [] => (none, td)
  | first :: tl =>
    match assocGet td.index first with
    | none => (some [], td)
    | some pairs =>
      let heads := pairs.filterMap fun pr => if candidateFilter pr.2 tl then some pr.1 else none
      heads.foldl (fun st head =>
        match st.1 with
        | none => st
        | some cs =>
          match (st.2.trie.getItemS head).1 with
          | none => (none, { st.2 with trie := (st.2.trie.getItemS head).2 })
          | some hpr =>
            (some (cs ++ (((tl.foldl (fun dd tok => (dd.getItemTok tok).2)
                ((hpr.2.getItemTok first).2)).find_all_paths).map
              (fun cont => (head, cont)))), { st.2 with trie := (st.2.trie.getItemS head).2 }))
        (some [], td)

theorem foldl_fixed_snd {α σ γ : Type} (f : σ × γ → α → σ × γ) (g : σ → α → σ) (c : γ)
    (hf : ∀ s a, f (s, c) a = (g s a, c)) :
    ∀ (l : List α) (s : σ), l.foldl f (s, c) = (l.foldl g s, c) := by
  intro l
  induction l with
  | nil => intro s; rfl
  | cons a rest ih =>
    intro s
    rw [List.foldl_cons, hf, List.foldl_cons]
    exact ih _

theorem TransformationDict.findPartialExpressionS_eq (td : TransformationDict)
    (p : List String) :
    td.findPartialExpressionS p = (td.findPartialExpression p, td) := by
  cases p with
  | nil => rfl
  | cons first tl =>
    rw [TransformationDict.findPartialExpressionS, TransformationDict.findPartialExpression]
    cases hg : assocGet td.index first with
    | none => rfl
    | some pairs =>
      simp only []
      generalize pairs.filterMap
        (fun pr => if candidateFilter pr.2 tl then some pr.1 else none) = heads
      refine foldl_fixed_snd _ _ _ ?_ heads (some [])
      intro s a
      cases s with
      | none => rfl
      | some cs =>
        simp only [Trie.getItemS_eq]
        cases td.trie.getItem a with
        | none => rfl
        | some hpr => rfl

/-- The `make_char_table(needle)` (ppdb.py lines 233-240): for `i` in
`range(len(needle) - 1)`, `table[needle[i]] = len(needle) - 1 - i`, a later
occurrence overwriting an earlier one. -/
def make_char_table {α : Type} [DecidableEq α] [Inhabited α] (needle : List α) :
    List (α × Int) :=
  (List.range (needle.length - 1)).foldl
    (fun t i => assocSet t (needle.getD i default) ((needle.length : Int) - 1 - (i : Int))) []

/-- The `is_prefix(needle, p)` (ppdb.py lines 259-268): whether
`needle[p:]` equals the corresponding leading part of `needle` (the source
returns the ints 0/1, used only as booleans). -/
def isPre {α : Type} [DecidableEq α] [Inhabited α] (needle : List α) (p : Nat) : Bool :=
  (List.range (needle.length - p)).all fun j =>
    decide (needle.getD (p + j) default = needle.getD j default)

/-- The counting loop of `suffix_length` with `c` remaining iterations
(starting from `c = p + 1`, indices `i` and `j` moving left in lockstep). -/
def suffLenGo {α : Type} [DecidableEq α] [Inhabited α] (needle : List α) :
    Nat → Nat → Nat → Nat → Nat
  | 0, _, _, len => len
  | c + 1, i, j, len =>
    if needle.getD i default = needle.getD j default then
      suffLenGo needle c (i - 1) (j - 1) (len + 1)
    else len

/-- The `suffix_length(needle, p)` (ppdb.py lines 271-284): the maximum length
of the substring ending at `p` that is also a suffix of `needle`. -/
def suffix_length {α : Type} [DecidableEq α] [Inhabited α] (needle : List α) (p : Nat) : Nat :=
  suffLenGo needle (p + 1) p (needle.length - 1) 0

/-- The first loop of `make_offset_table` (ppdb.py lines 247-252): sweep `i`
from `len(needle) - 1` down to `0`, tracking `last_prefix_position`, and
append `last_prefix_position - i + len(needle) - 1` to the table.  Returns
the built table together with the final `last_prefix_position`. -/
def passOneStep {α : Type} [DecidableEq α] [Inhabited α] (needle : List α)
    (acc : List Int × Nat) (i : Nat) : List Int × Nat :=
  let lpp := if isPre needle (i + 1) then i + 1 else acc.2
  (acc.1 ++ [(lpp : Int) - (i : Int) + (needle.length : Int) - 1], lpp)

def offsetPassOne {α : Type} [DecidableEq α] [Inhabited α] (needle : List α) :
    List Int × Nat :=
  (List.range needle.length).reverse.foldl (passOneStep needle) ([], needle.length)

/-- The `make_offset_table(needle)` (ppdb.py lines 243-256): the first sweep
(`offsetPassOne`), then for `i` in `range(len(needle) - 1)` overwrite
`table[slen] = len(needle) - 1 - i + slen` where `slen = suffix_length(needle, i)`. -/
def passTwoStep {α : Type} [DecidableEq α] [Inhabited α] (needle : List α)
    (t : List Int) (i : Nat) : List Int :=
  t.set (suffix_length needle i)
    ((needle.length : Int) - 1 - (i : Int) + (suffix_length needle i : Int))

def make_offset_table {α : Type} [DecidableEq α] [Inhabited α] (needle : List α) : List Int :=
  (List.range (needle.length - 1)).foldl (passTwoStep needle) (offsetPassOne needle).1

/-- The inner `while needle[j] == haystack[i]` loop of `search` (ppdb.py
lines 222-227): on total success return the match position (`Sum.inl i`,
reached when `j` hits `0`), otherwise return the values of `i` and `j` at
the first mismatch (`Sum.inr (i, j)`). -/
def innerScan {α : Type} [DecidableEq α] [Inhabited α] (needle hay : List α) :
    Nat → Nat → Sum Nat (Nat × Nat)
  | i, 0 => if needle.getD 0 default = hay.getD i default then .inl i else .inr (i, 0)
  | i, j + 1 =>
    if needle.getD (j + 1) default = hay.getD i default then innerScan needle hay (i - 1) j
    else .inr (i, j + 1)

/-- The outer `while i < len(haystack)` loop of `search` (ppdb.py lines
221-229), with an explicit fuel counting the remaining allowed iterations:
`none` means the fuel ran out (in Python: the loop would still be running).
On a mismatch at `(i, j)`, the source advances
`i += max(offset_table[len(needle) - 1 - j], char_table.get(haystack[i], -1))`. -/
def searchAux {α : Type} [DecidableEq α] [Inhabited α] (needle hay : List α)
    (ct : List (α × Int)) (ot : List Int) : Nat → Nat → Option Int
  | 0, i =>
    if i < hay.length then
      match innerScan needle hay i (needle.length - 1) with
      | .inl s => some (s : Int)
      | .inr _ => none
    else some (-1)
  | fuel + 1, i =>
    if i < hay.length then
      match innerScan needle hay i (needle.length - 1) with
      | .inl s => some (s : Int)
      | .inr pr =>
        searchAux needle hay ct ot fuel
          (pr.1 + (max (ot.getD (needle.length - 1 - pr.2) 0)
              ((assocGet ct (hay.getD pr.1 default)).getD (-1))).toNat)
    else some (-1)

/-- The `search(haystack, needle)` (ppdb.py lines 212-230).  An empty needle
returns `0` immediately; otherwise the Boyer-Moore loop starts at
`i = len(needle) - 1`.  `len(haystack) + 1` iterations always suffice
(each mismatch strictly increases `i`, see the offset-table bounds), so the
fuel is an upper bound on Python's actual iteration count; `some r` is the
return value `r`, `none` would be a non-terminating loop. -/
def search {α : Type} [DecidableEq α] [Inhabited α] (hay needle : List α) : Option Int :=
  if needle.length = 0 then some 0
  else searchAux needle hay (make_char_table needle) (make_offset_table needle)
    (hay.length + 1) (needle.length - 1)

/-- Specification-side definition, following the spec's words: `s` is an
occurrence of `needle` in `hay` if the contiguous slice of `hay` starting at
`s` of the needle's length equals `needle`. -/
def occursAtB {α : Type} [DecidableEq α] (hay needle : List α) (s : Nat) : Bool :=
  decide ((hay.drop s).take needle.length = needle)

/-- Specification-side definition, following the spec's words: the index of
the first (leftmost) occurrence of `needle` in `hay`, if any. -/
def firstOccurrence {α : Type} [DecidableEq α] (hay needle : List α) : Option Nat :=
  (List.range (hay.length + 1)).find? (occursAtB hay needle)

section BoyerMooreProofs

variable {α : Type} [DecidableEq α] [Inhabited α]

theorem suffLenGo_add (n : List α) :
    ∀ (c i j len : Nat), suffLenGo n c i j len = len + suffLenGo n c i j 0 := by
  intro c
  induction c with
  | zero => intro i j len; simp [suffLenGo]
  | succ c ih =>
    intro i j len
    rw [suffLenGo, suffLenGo]
    by_cases h : n.getD i default = n.getD j default
    · rw [if_pos h, if_pos h, ih (i - 1) (j - 1) (len + 1), ih (i - 1) (j - 1) (0 + 1)]
      omega
    · rw [if_neg h, if_neg h]
      omega

theorem suffLenGo_zero_succ (n : List α) (c i j : Nat) :
    suffLenGo n (c + 1) i j 0 =
      if n.getD i default = n.getD j default then 1 + suffLenGo n c (i - 1) (j - 1) 0
      else 0 := by
  rw [suffLenGo]
  by_cases h : n.getD i default = n.getD j default
  · rw [if_pos h, if_pos h, suffLenGo_add n c (i - 1) (j - 1) (0 + 1)]
  · rw [if_neg h, if_neg h]

theorem suffLenGo_le (n : List α) : ∀ (c i j : Nat), suffLenGo n c i j 0 ≤ c := by
  intro c
  induction c with
  | zero => intro i j; simp [suffLenGo]
  | succ c ih =>
    intro i j
    rw [suffLenGo_zero_succ]
    by_cases h : n.getD i default = n.getD j default
    · rw [if_pos h]
      have := ih (i - 1) (j - 1)
      omega
    · rw [if_neg h]
      omega

theorem suffLenGo_match (n : List α) : ∀ (c i j t : Nat), t < suffLenGo n c i j 0 →
    n.getD (i - t) default = n.getD (j - t) default := by
  intro c
  induction c with
  | zero => intro i j t ht; simp [suffLenGo] at ht
  | succ c ih =>
    intro i j t ht
    rw [suffLenGo_zero_succ] at ht
    by_cases h : n.getD i default = n.getD j default
    · rw [if_pos h] at ht
      cases t with
      | zero => simpa using h
      | succ t' =>
        have hi : i - (t' + 1) = i - 1 - t' := by omega
        have hj : j - (t' + 1) = j - 1 - t' := by omega
        rw [hi, hj]
        exact ih (i - 1) (j - 1) t' (by omega)
    · rw [if_neg h] at ht
      omega

theorem suffLenGo_mismatch (n : List α) : ∀ (c i j : Nat), suffLenGo n c i j 0 < c →
    n.getD (i - suffLenGo n c i j 0) default ≠ n.getD (j - suffLenGo n c i j 0) default := by
  intro c
  induction c with
  | zero => intro i j h; omega
  | succ c ih =>
    intro i j h
    rw [suffLenGo_zero_succ] at h ⊢
    by_cases heq : n.getD i default = n.getD j default
    · rw [if_pos heq] at h ⊢
      have hlt : suffLenGo n c (i - 1) (j - 1) 0 < c := by omega
      have := ih (i - 1) (j - 1) hlt
      have hi : i - (1 + suffLenGo n c (i - 1) (j - 1) 0) = i - 1 - suffLenGo n c (i - 1) (j - 1) 0 := by
        omega
      have hj : j - (1 + suffLenGo n c (i - 1) (j - 1) 0) = j - 1 - suffLenGo n c (i - 1) (j - 1) 0 := by
        omega
      rw [hi, hj]
      exact this
    · rw [if_neg heq] at h ⊢
      simpa using heq

theorem suffLenGo_complete (n : List α) : ∀ (c i j k : Nat),
    (∀ t, t < k → n.getD (i - t) default = n.getD (j - t) default) →
    (k < c → n.getD (i - k) default ≠ n.getD (j - k) default) →
    k ≤ c → suffLenGo n c i j 0 = k := by
  intro c
  induction c with
  | zero => intro i j k _ _ hk; simp [suffLenGo]; omega
  | succ c ih =>
    intro i j k hmatch hmis hk
    rw [suffLenGo_zero_succ]
    cases k with
    | zero =>
      have h0 := hmis (by omega)
      simp only [Nat.sub_zero] at h0
      rw [if_neg h0]
    | succ k' =>
      have h0 : n.getD i default = n.getD j default := by
        have := hmatch 0 (by omega)
        simpa using this
      rw [if_pos h0]
      have hrec : suffLenGo n c (i - 1) (j - 1) 0 = k' := by
        apply ih
        · intro t ht
          have hi : i - 1 - t = i - (t + 1) := by omega
          have hj : j - 1 - t = j - (t + 1) := by omega
          rw [hi, hj]
          exact hmatch (t + 1) (by omega)
        · intro hc
          have hi : i - 1 - k' = i - (k' + 1) := by omega
          have hj : j - 1 - k' = j - (k' + 1) := by omega
          rw [hi, hj]
          exact hmis (by omega)
        · omega
      omega

theorem suffix_length_le (n : List α) (p : Nat) : suffix_length n p ≤ p + 1 :=
  suffLenGo_le n (p + 1) p (n.length - 1)

theorem suffix_length_match (n : List α) (p t : Nat) (ht : t < suffix_length n p) :
    n.getD (p - t) default = n.getD (n.length - 1 - t) default :=
  suffLenGo_match n (p + 1) p (n.length - 1) t ht

theorem suffix_length_mismatch (n : List α) (p : Nat) (h : suffix_length n p ≤ p) :
    n.getD (p - suffix_length n p) default ≠
      n.getD (n.length - 1 - suffix_length n p) default := by
  have h' : suffLenGo n (p + 1) p (n.length - 1) 0 < p + 1 := by
    simp only [suffix_length] at h
    omega
  exact suffLenGo_mismatch n (p + 1) p (n.length - 1) h'


theorem suffix_length_complete (n : List α) (p k : Nat)
    (hmatch : ∀ t, t < k → n.getD (p - t) default = n.getD (n.length - 1 - t) default)
    (hmis : k ≤ p → n.getD (p - k) default ≠ n.getD (n.length - 1 - k) default)
    (hk : k ≤ p + 1) : suffix_length n p = k :=
  suffLenGo_complete n (p + 1) p (n.length - 1) k hmatch (fun hc => hmis (by omega)) (by omega)

theorem isPre_iff (n : List α) (p : Nat) :
    isPre n p = true ↔ ∀ j, j < n.length - p → n.getD (p + j) default = n.getD j default := by
  unfold isPre
  rw [List.all_eq_true]
  constructor
  · intro h j hj
    have := h j (List.mem_range.mpr hj)
    exact decide_eq_true_iff.mp this
  · intro h j hj
    exact decide_eq_true_iff.mpr (h j (List.mem_range.mp hj))

theorem isPre_length (n : List α) : isPre n n.length = true := by
  rw [isPre_iff]
  intro j hj
  omega

end BoyerMooreProofs

section BoyerMoorePassOne

variable {α : Type} [DecidableEq α] [Inhabited α]

/-- The `last_prefix_position` value after the first sweep of
`make_offset_table` has processed indices `len(needle)-1` down to `i`: the
least `q ≥ i + 1` such that `needle[q:]` is a prefix of `needle`
(position `len(needle)` always qualifies). -/
def lppFrom (n : List α) (i : Nat) : Nat :=
  match (List.range' (i + 1) (n.length - i)).find? (fun q => isPre n q) with
  | some q => q
  | none => n.length

theorem find?_range'_le (p : Nat → Bool) : ∀ (c s q : Nat), s ≤ q → q < s + c → p q = true →
    ∃ r, (List.range' s c).find? p = some r ∧ r ≤ q := by
  intro c
  induction c with
  | zero => intro s q h1 h2 _; omega
  | succ c ih =>
    intro s q h1 h2 hp
    rw [List.range'_succ s c 1, List.find?_cons]
    by_cases hs : p s
    · exact ⟨s, by simp [hs], h1⟩
    · have hqs : q ≠ s := by rintro rfl; exact hs hp
      obtain ⟨r, hr, hle⟩ := ih (s + 1) q (by omega) (by omega) hp
      exact ⟨r, by simp [hs, hr], hle⟩

theorem lppFrom_unfold (n : List α) (i : Nat) (h : i < n.length) :
    lppFrom n i = if isPre n (i + 1) then i + 1 else lppFrom n (i + 1) := by
  unfold lppFrom
  have hc : n.length - i = (n.length - (i + 1)) + 1 := by omega
  rw [hc, List.range'_succ (i + 1) (n.length - (i + 1)) 1, List.find?_cons]
  by_cases hp : isPre n (i + 1)
  · simp [hp]
  · simp [hp]

theorem lppFrom_length (n : List α) : lppFrom n n.length = n.length := by
  unfold lppFrom
  simp

theorem lppFrom_bounds (n : List α) (i : Nat) (h : i < n.length) :
    i + 1 ≤ lppFrom n i ∧ lppFrom n i ≤ n.length := by
  cases hf : (List.range' (i + 1) (n.length - i)).find? (fun q => isPre n q) with
  | none =>
    unfold lppFrom
    simp only [hf]
    constructor <;> omega
  | some q =>
    have hq := List.mem_of_find?_eq_some hf
    rw [List.mem_range'] at hq
    obtain ⟨t, ht, rfl⟩ := hq
    unfold lppFrom
    simp only [hf]
    constructor <;> omega

theorem lppFrom_isPre (n : List α) (i : Nat) : isPre n (lppFrom n i) = true := by
  unfold lppFrom
  cases hf : (List.range' (i + 1) (n.length - i)).find? (fun q => isPre n q) with
  | none => exact isPre_length n
  | some q => exact List.find?_some hf

theorem lppFrom_min (n : List α) (i q : Nat) (h1 : i + 1 ≤ q) (h2 : q ≤ n.length)
    (hq : isPre n q = true) : lppFrom n i ≤ q := by
  obtain ⟨r, hr, hle⟩ :=
    find?_range'_le (fun x => isPre n x) (n.length - i) (i + 1) q h1 (by omega) hq
  unfold lppFrom
  rw [hr]
  exact hle

theorem offsetPassOne_gen (n : List α) : ∀ (c : Nat), c ≤ n.length → ∀ (acc : List Int),
    (List.range c).reverse.foldl (passOneStep n) (acc, lppFrom n c) =
      (acc ++ ((List.range c).reverse.map
        (fun i => (lppFrom n i : Int) - (i : Int) + (n.length : Int) - 1)),
       lppFrom n 0) := by
  intro c
  induction c with
  | zero => intro _ acc; simp
  | succ c ih =>
    intro hc acc
    rw [List.range_succ c, List.reverse_append]
    simp only [List.reverse_singleton, List.singleton_append, List.foldl_cons, List.map_cons]
    have hstep : (if isPre n (c + 1) then c + 1 else lppFrom n (c + 1)) = lppFrom n c :=
      (lppFrom_unfold n c (by omega)).symm
    have happ : passOneStep n (acc, lppFrom n (c + 1)) c =
        (acc ++ [(lppFrom n c : Int) - (c : Int) + (n.length : Int) - 1], lppFrom n c) := by
      simp only [passOneStep, hstep]
    rw [happ, ih (by omega)]
    rw [List.append_assoc]
    rfl

theorem offsetPassOne_fst (n : List α) :
    (offsetPassOne n).1 = (List.range n.length).reverse.map
      (fun i => (lppFrom n i : Int) - (i : Int) + (n.length : Int) - 1) := by
  unfold offsetPassOne
  have := offsetPassOne_gen n n.length le_rfl []
  rw [lppFrom_length] at this
  rw [this]
  simp

theorem offsetPassOne_length (n : List α) : (offsetPassOne n).1.length = n.length := by
  rw [offsetPassOne_fst]
  simp

theorem offsetPassOne_getD (n : List α) (k : Nat) (hk : k < n.length) :
    (offsetPassOne n).1.getD k 0 = (lppFrom n (n.length - 1 - k) : Int) + (k : Int) := by
  rw [offsetPassOne_fst, List.map_reverse, List.getD_eq_getElem?_getD,
    List.getElem?_reverse (by simpa using hk)]
  simp only [List.length_map, List.length_range]
  rw [List.getElem?_map, List.getElem?_range (show n.length - 1 - k < n.length by omega)]
  simp only [Option.map_some', Option.getD_some]
  have hcast : ((n.length - 1 - k : Nat) : Int) = (n.length : Int) - 1 - (k : Int) := by
    omega
  rw [hcast]
  ring

section BoyerMoorePassTwo

variable {α : Type} [DecidableEq α] [Inhabited α]

theorem list_getD_set_self (l : List Int) (i : Nat) (v d : Int) (h : i < l.length) :
    (l.set i v).getD i d = v := by
  simp [List.getD_eq_getElem?_getD, List.getElem?_set_self', List.getElem?_eq_getElem h]

theorem list_getD_set_ne (l : List Int) (i j : Nat) (v d : Int) (h : i ≠ j) :
    (l.set i v).getD j d = l.getD j d := by
  simp [List.getD_eq_getElem?_getD, List.getElem?_set_ne h]

theorem list_getD_of_le (l : List Int) (i : Nat) (d : Int) (h : l.length ≤ i) :
    l.getD i d = d := by
  simp [List.getD_eq_getElem?_getD, List.getElem?_eq_none h]

theorem passTwo_length (n : List α) :
    ∀ (r : Nat) (t : List Int), ((List.range r).foldl (passTwoStep n) t).length = t.length := by
  intro r
  induction r with
  | zero => intro t; rfl
  | succ r ih =>
    intro t
    rw [List.range_succ, List.foldl_append, List.foldl_cons, List.foldl_nil]
    rw [passTwoStep, List.length_set]
    exact ih t

theorem passTwo_cases (n : List α) :
    ∀ (r : Nat) (t : List Int) (k : Nat),
      ((List.range r).foldl (passTwoStep n) t).getD k 0 = t.getD k 0 ∨
      ∃ i, i < r ∧ suffix_length n i = k ∧
        ((List.range r).foldl (passTwoStep n) t).getD k 0 =
          (n.length : Int) - 1 - (i : Int) + (k : Int) := by
  intro r
  induction r with
  | zero => intro t k; exact Or.inl rfl
  | succ r ih =>
    intro t k
    rw [List.range_succ, List.foldl_append, List.foldl_cons, List.foldl_nil]
    set T := (List.range r).foldl (passTwoStep n) t with hT
    rw [passTwoStep]
    by_cases hsl : suffix_length n r = k
    · by_cases hk : k < T.length
      · right
        refine ⟨r, by omega, hsl, ?_⟩
        rw [hsl, list_getD_set_self T k _ 0 hk]
      · left
        have h1 : (T.set (suffix_length n r)
            ((n.length : Int) - 1 - (r : Int) + (suffix_length n r : Int))).getD k 0 = 0 := by
          apply list_getD_of_le
          rw [List.length_set]
          omega
        have h2 : t.getD k 0 = 0 := by
          apply list_getD_of_le
          have hTlen : T.length = t.length := passTwo_length n r t
          omega
        rw [h1, h2]
    · rw [list_getD_set_ne T _ k _ 0 hsl]
      rcases ih t k with h | ⟨i, hi, hsl', hval⟩
      · exact Or.inl h
      · exact Or.inr ⟨i, by omega, hsl', hval⟩

theorem passTwo_written_le (n : List α) :
    ∀ (r : Nat) (t : List Int) (k i : Nat), i < r → suffix_length n i = k → k < t.length →
      ((List.range r).foldl (passTwoStep n) t).getD k 0 ≤
        (n.length : Int) - 1 - (i : Int) + (k : Int) := by
  intro r
  induction r with
  | zero => intro t k i h; omega
  | succ r ih =>
    intro t k i hir hsl hk
    rw [List.range_succ, List.foldl_append, List.foldl_cons, List.foldl_nil]
    set T := (List.range r).foldl (passTwoStep n) t with hT
    have hTlen : T.length = t.length := passTwo_length n r t
    rw [passTwoStep]
    by_cases hslr : suffix_length n r = k
    · rw [hslr, list_getD_set_self T k _ 0 (by omega)]
      have hir2 : i ≤ r := by omega
      have hc : (i : Int) ≤ (r : Int) := by omega
      omega
    · rw [list_getD_set_ne T _ k _ 0 hslr]
      have hir' : i < r := by
        rcases Nat.lt_succ_iff_lt_or_eq.mp hir with h | h
        · exact h
        · subst h; exact absurd hsl hslr
      exact ih t k i hir' hsl hk

theorem make_offset_table_length (n : List α) :
    (make_offset_table n).length = n.length := by
  rw [make_offset_table, passTwo_length, offsetPassOne_length]

theorem offset_entry_cases (n : List α) (k : Nat) (hk : k < n.length) :
    (make_offset_table n).getD k 0 = (lppFrom n (n.length - 1 - k) : Int) + (k : Int) ∨
    ∃ i, i < n.length - 1 ∧ suffix_length n i = k ∧
      (make_offset_table n).getD k 0 = (n.length : Int) - 1 - (i : Int) + (k : Int) := by
  rw [make_offset_table]
  rcases passTwo_cases n (n.length - 1) (offsetPassOne n).1 k with h | h
  · left
    rw [h, offsetPassOne_getD n k hk]
  · right
    exact h

theorem offset_pos (n : List α) (k : Nat) (hk : k < n.length) :
    (k : Int) + 1 ≤ (make_offset_table n).getD k 0 := by
  rcases offset_entry_cases n k hk with h | ⟨i, hi, _, h⟩
  · have hb := lppFrom_bounds n (n.length - 1 - k) (by omega)
    rw [h]
    omega
  · rw [h]
    omega

theorem offset_ub (n : List α) (k : Nat) (hk : k < n.length) :
    (make_offset_table n).getD k 0 ≤ (k : Int) + (n.length : Int) := by
  rcases offset_entry_cases n k hk with h | ⟨i, hi, _, h⟩
  · have hb := lppFrom_bounds n (n.length - 1 - k) (by omega)
    rw [h]
    omega
  · rw [h]
    omega

end BoyerMoorePassTwo

section BoyerMooreSafety

variable {α : Type} [DecidableEq α] [Inhabited α]

/-- Safety of the good-suffix table: whenever shifting the alignment by
`e ≥ 1` is consistent with the `k` matched suffix symbols and with the
mismatching symbol (hypotheses `part1` and `part2`, which hold at any true
occurrence `e` positions further right), the table entry for `k` matched
symbols is at most `k + e`, so the search never skips such an alignment. -/
theorem offset_safe (n : List α) (k e : Nat) (hk : k < n.length) (he : 1 ≤ e)
    (part1 : ∀ t, t < k → t + e ≤ n.length - 1 →
      n.getD (n.length - 1 - t - e) default = n.getD (n.length - 1 - t) default)
    (part2 : k + e ≤ n.length - 1 →
      n.getD (n.length - 1 - k - e) default ≠ n.getD (n.length - 1 - k) default) :
    (make_offset_table n).getD k 0 ≤ (k : Int) + (e : Int) := by
  have hm1 : 1 ≤ n.length := by omega
  by_cases hke : k + e ≤ n.length - 1
  · -- the matched suffix, preceded by a mismatching symbol, reoccurs
    -- ending at position i = len - 1 - e: pass two recorded exactly this
    set i := n.length - 1 - e with hi
    have hi1 : i < n.length - 1 := by omega
    have hslen : suffix_length n i = k := by
      apply suffix_length_complete
      · intro t ht
        have hidx : i - t = n.length - 1 - t - e := by omega
        rw [hidx]
        exact part1 t ht (by omega)
      · intro hki
        have hidx : i - k = n.length - 1 - k - e := by omega
        rw [hidx]
        exact part2 hke
      · omega
    have hfin := passTwo_written_le n (n.length - 1) (offsetPassOne n).1 k i hi1 hslen
      (by rw [offsetPassOne_length]; omega)
    rw [make_offset_table]
    have hci : (i : Int) = (n.length : Int) - 1 - (e : Int) := by omega
    omega
  · by_cases hem : n.length ≤ e
    · have := offset_ub n k hk
      omega
    · -- prefix case: len - k ≤ e < len, and needle[e:] is a prefix
      have hpre : isPre n e = true := by
        rw [isPre_iff]
        intro j hj
        have h := part1 (n.length - 1 - e - j) (by omega) (by omega)
        have h1 : n.length - 1 - (n.length - 1 - e - j) - e = j := by omega
        have h2 : n.length - 1 - (n.length - 1 - e - j) = e + j := by omega
        rw [h1, h2] at h
        exact h.symm
      rcases offset_entry_cases n k hk with h | ⟨i, hi, hsl, hval⟩
      · have hmin : lppFrom n (n.length - 1 - k) ≤ e :=
          lppFrom_min n (n.length - 1 - k) e (by omega) (by omega) hpre
        rw [h]
        omega
      · have hsle : k ≤ i + 1 := by
          have := suffix_length_le n i
          omega
        rw [hval]
        omega

end BoyerMooreSafety

section BoyerMooreOccurrence

variable {α : Type} [DecidableEq α] [Inhabited α]

theorem take_drop_getD (hy : List α) (s m u : Nat) (hu : u < m) (hs : s + m ≤ hy.length) :
    ((hy.drop s).take m).getD u default = hy.getD (s + u) default := by
  rw [List.getD_eq_getElem?_getD, List.getD_eq_getElem?_getD, List.getElem?_take,
    if_pos hu, List.getElem?_drop]

theorem occursAtB_length (hy n : List α) (s : Nat) (h : occursAtB hy n s = true) :
    s + n.length ≤ hy.length ∨ n.length = 0 := by
  unfold occursAtB at h
  rw [decide_eq_true_iff] at h
  have hlen := congrArg List.length h
  rw [List.length_take, List.length_drop] at hlen
  omega

theorem occursAtB_iff_getD (hy n : List α) (s : Nat) (hs : s + n.length ≤ hy.length) :
    occursAtB hy n s = true ↔
      ∀ u, u < n.length → hy.getD (s + u) default = n.getD u default := by
  unfold occursAtB
  rw [decide_eq_true_iff]
  constructor
  · intro h u hu
    rw [← take_drop_getD hy s n.length u hu hs, h]
  · intro h
    have hlen : ((hy.drop s).take n.length).length = n.length := by
      rw [List.length_take, List.length_drop]
      omega
    apply List.ext_getElem hlen
    intro u ha hb
    have hgd1 : ((hy.drop s).take n.length)[u] = ((hy.drop s).take n.length).getD u default := by
      rw [List.getD_eq_getElem?_getD, List.getElem?_eq_getElem ha]
      rfl
    have hgd2 : n[u] = n.getD u default := by
      rw [List.getD_eq_getElem?_getD, List.getElem?_eq_getElem hb]
      rfl
    rw [hgd1, hgd2, take_drop_getD hy s n.length u hb hs]
    exact h u hb

theorem find?_range'_first (p : Nat → Bool) : ∀ (c s q : Nat), s ≤ q → q < s + c →
    p q = true → (∀ r, s ≤ r → r < q → p r = false) →
    (List.range' s c).find? p = some q := by
  intro c
  induction c with
  | zero => intro s q h1 h2 _ _; omega
  | succ c ih =>
    intro s q h1 h2 hp hmin
    rw [List.range'_succ s c 1, List.find?_cons]
    by_cases hs : q = s
    · subst hs
      simp [hp]
    · have hfs : p s = false := hmin s le_rfl (by omega)
      simp only [hfs]
      exact ih (s + 1) q (by omega) (by omega) hp (fun r hr1 hr2 => hmin r (by omega) hr2)

theorem firstOccurrence_eq_none (hy n : List α) (h : ∀ s, occursAtB hy n s = false) :
    firstOccurrence hy n = none := by
  unfold firstOccurrence
  rw [List.find?_eq_none]
  intro x _
  rw [h x]
  simp

theorem firstOccurrence_eq_some (hy n : List α) (s : Nat) (hs : s ≤ hy.length)
    (h : occursAtB hy n s = true) (hmin : ∀ s', s' < s → occursAtB hy n s' = false) :
    firstOccurrence hy n = some s := by
  unfold firstOccurrence
  rw [List.range_eq_range' (hy.length + 1)]
  exact find?_range'_first (occursAtB hy n) (hy.length + 1) 0 s (by omega) (by omega) h
    (fun r _ hr => hmin r hr)

theorem firstOcc_none_of_inv (hy n : List α) (hn : 1 ≤ n.length) (i : Nat)
    (hi : hy.length ≤ i) (hinv : ∀ s, s < i - (n.length - 1) → occursAtB hy n s = false) :
    firstOccurrence hy n = none := by
  apply firstOccurrence_eq_none
  intro s
  by_cases h : occursAtB hy n s = true
  · exfalso
    rcases occursAtB_length hy n s h with hle | hm
    · have hs : s < i - (n.length - 1) := by omega
      rw [hinv s hs] at h
      cases h
    · omega
  · simpa using h

end BoyerMooreOccurrence

section BoyerMooreInner

variable {α : Type} [DecidableEq α] [Inhabited α]

theorem innerScan_full (n hy : List α) : ∀ (j i : Nat),
    (∀ t, t ≤ j → n.getD (j - t) default = hy.getD (i - t) default) →
    innerScan n hy i j = Sum.inl (i - j) := by
  intro j
  induction j with
  | zero =>
    intro i h
    have h0 := h 0 le_rfl
    simp only [Nat.sub_zero] at h0
    rw [innerScan, if_pos h0, Nat.sub_zero]
  | succ j ih =>
    intro i h
    have h0 : n.getD (j + 1) default = hy.getD i default := by
      have := h 0 (by omega)
      simpa using this
    rw [innerScan, if_pos h0]
    have hrec := ih (i - 1) (fun t ht => by
      have := h (t + 1) (by omega)
      have e1 : j + 1 - (t + 1) = j - t := by omega
      have e2 : i - (t + 1) = i - 1 - t := by omega
      rw [e1, e2] at this
      exact this)
    rw [hrec]
    have : i - 1 - j = i - (j + 1) := by omega
    rw [this]

theorem innerScan_mismatch (n hy : List α) : ∀ (k j i : Nat), k ≤ j →
    (∀ t, t < k → n.getD (j - t) default = hy.getD (i - t) default) →
    n.getD (j - k) default ≠ hy.getD (i - k) default →
    innerScan n hy i j = Sum.inr (i - k, j - k) := by
  intro k
  induction k with
  | zero =>
    intro j i _ _ hmis
    simp only [Nat.sub_zero] at hmis ⊢
    cases j with
    | zero => rw [innerScan, if_neg hmis]
    | succ j' => rw [innerScan, if_neg hmis]
  | succ k' ih =>
    intro j i hk hmatch hmis
    obtain ⟨j', rfl⟩ : ∃ j', j = j' + 1 := ⟨j - 1, by omega⟩
    have h0 : n.getD (j' + 1) default = hy.getD i default := by
      have := hmatch 0 (by omega)
      simpa using this
    rw [innerScan, if_pos h0]
    have hrec := ih j' (i - 1) (by omega)
      (fun t ht => by
        have := hmatch (t + 1) (by omega)
        have e1 : j' + 1 - (t + 1) = j' - t := by omega
        have e2 : i - (t + 1) = i - 1 - t := by omega
        rw [e1, e2] at this
        exact this)
      (by
        have e1 : j' + 1 - (k' + 1) = j' - k' := by omega
        have e2 : i - (k' + 1) = i - 1 - k' := by omega
        rw [e1, e2] at hmis
        exact hmis)
    rw [hrec]
    have e1 : i - 1 - k' = i - (k' + 1) := by omega
    have e2 : j' - k' = j' + 1 - (k' + 1) := by omega
    rw [e1, e2]

end BoyerMooreInner


section BoyerMooreCharTable

variable {α : Type} [DecidableEq α] [Inhabited α]

theorem char_table_gen (n : List α) : ∀ (r : Nat) (c : α),
    (assocGet ((List.range r).foldl
        (fun t i => assocSet t (n.getD i default) ((n.length : Int) - 1 - (i : Int))) []) c
          = none ∧
      ∀ q, q < r → n.getD q default ≠ c) ∨
    (∃ q₀, q₀ < r ∧
      assocGet ((List.range r).foldl
        (fun t i => assocSet t (n.getD i default) ((n.length : Int) - 1 - (i : Int))) []) c
          = some ((n.length : Int) - 1 - (q₀ : Int)) ∧
      n.getD q₀ default = c ∧ ∀ q', q₀ < q' → q' < r → n.getD q' default ≠ c) := by
  intro r
  induction r with
  | zero =>
    intro c
    left
    exact ⟨rfl, by omega⟩
  | succ r ih =>
    intro c
    rw [List.range_succ, List.foldl_append, List.foldl_cons, List.foldl_nil]
    set T := (List.range r).foldl
      (fun t i => assocSet t (n.getD i default) ((n.length : Int) - 1 - (i : Int))) [] with hT
    by_cases hc : n.getD r default = c
    · right
      refine ⟨r, by omega, ?_, hc, by omega⟩
      rw [hc, assocGet_assocSet_self]
    · have hget : assocGet (assocSet T (n.getD r default) ((n.length : Int) - 1 - (r : Int))) c
          = assocGet T c :=
        assocGet_assocSet_ne T (n.getD r default) c _ (fun hh => hc hh.symm)
      rcases ih c with ⟨hnone, hall⟩ | ⟨q₀, hq₀, hgv, hnc, hafter⟩
      · left
        refine ⟨by rw [hget]; exact hnone, ?_⟩
        intro q hq
        rcases Nat.lt_succ_iff_lt_or_eq.mp hq with h | h
        · exact hall q h
        · subst h; exact hc
      · right
        refine ⟨q₀, by omega, by rw [hget]; exact hgv, hnc, ?_⟩
        intro q' h1 h2
        rcases Nat.lt_succ_iff_lt_or_eq.mp h2 with h | h
        · exact hafter q' h1 h
        · subst h; exact hc

theorem char_table_le (n : List α) (c : α) (q : Nat) (hq : q < n.length - 1)
    (hc : n.getD q default = c) :
    (q : Int) ≤ (n.length : Int) - 1 - ((assocGet (make_char_table n) c).getD (-1)) := by
  rcases char_table_gen n (n.length - 1) c with ⟨_, hall⟩ | ⟨q₀, hq₀, hgv, _, hafter⟩
  · exact absurd hc (hall q hq)
  · rw [make_char_table, hgv, Option.getD_some]
    by_cases hqq : q ≤ q₀
    · omega
    · exact absurd hc (hafter q (by omega) hq)

theorem char_table_cases (n : List α) (c : α) :
    (assocGet (make_char_table n) c).getD (-1) = -1 ∨
    (1 ≤ (assocGet (make_char_table n) c).getD (-1) ∧
      (assocGet (make_char_table n) c).getD (-1) ≤ (n.length : Int) - 1) := by
  rcases char_table_gen n (n.length - 1) c with ⟨hnone, _⟩ | ⟨q₀, hq₀, hgv, _, _⟩
  · left
    rw [make_char_table, hnone]
    rfl
  · right
    rw [make_char_table, hgv, Option.getD_some]
    omega

end BoyerMooreCharTable


section BoyerMooreMain

variable {α : Type} [DecidableEq α] [Inhabited α]

/-- Specification-side definition, following the spec's words: the value a
correct search must return — the leftmost occurrence index, or the sentinel
`-1` when there is none. -/
def searchSpec {α : Type} [DecidableEq α] (hy n : List α) : Int :=
  match firstOccurrence hy n with
  | some s => (s : Int)
  | none => -1

theorem searchAux_correct (n hy : List α) (hn : 1 ≤ n.length) :
    ∀ (fuel i : Nat), n.length - 1 ≤ i → hy.length + 1 ≤ fuel + i →
      (∀ s, s < i - (n.length - 1) → occursAtB hy n s = false) →
      searchAux n hy (make_char_table n) (make_offset_table n) fuel i =
        some (searchSpec hy n) := by
  intro fuel
  induction fuel with
  | zero =>
    intro i hi1 hi2 hinv
    have hge : ¬(i < hy.length) := by omega
    rw [searchAux, if_neg hge, searchSpec,
      firstOcc_none_of_inv hy n hn i (by omega) hinv]
  | succ fuel ih =>
    intro i hi1 hi2 hinv
    by_cases hlt : i < hy.length
    · by_cases hfull : ∀ t, t ≤ n.length - 1 →
          n.getD (n.length - 1 - t) default = hy.getD (i - t) default
      · have hscan := innerScan_full n hy (n.length - 1) i hfull
        rw [searchAux, if_pos hlt]
        simp only [hscan]
        have hocc : occursAtB hy n (i - (n.length - 1)) = true := by
          rw [occursAtB_iff_getD hy n _ (by omega)]
          intro u hu
          have hf := hfull (n.length - 1 - u) (by omega)
          have e1 : n.length - 1 - (n.length - 1 - u) = u := by omega
          have e2 : i - (n.length - 1 - u) = i - (n.length - 1) + u := by omega
          rw [e1, e2] at hf
          exact hf.symm
        rw [searchSpec,
          firstOccurrence_eq_some hy n (i - (n.length - 1)) (by omega) hocc hinv]
      · push_neg at hfull
        have hex : ∃ t, ¬(n.getD (n.length - 1 - t) default = hy.getD (i - t) default) := by
          obtain ⟨t, _, ht2⟩ := hfull
          exact ⟨t, ht2⟩
        set k := Nat.find hex with hkdef
        have hkP : ¬(n.getD (n.length - 1 - k) default = hy.getD (i - k) default) :=
          Nat.find_spec hex
        have hkmin : ∀ t, t < k →
            n.getD (n.length - 1 - t) default = hy.getD (i - t) default := by
          intro t ht
          exact not_not.mp (Nat.find_min hex ht)
        have hkle : k ≤ n.length - 1 := by
          obtain ⟨t, ht1, ht2⟩ := hfull
          exact le_trans (Nat.find_min' hex ht2) ht1
        have hkm : k < n.length := by omega
        have hscan := innerScan_mismatch n hy k (n.length - 1) i hkle hkmin hkP
        rw [searchAux, if_pos hlt]
        simp only [hscan]
        have hidx : n.length - 1 - (n.length - 1 - k) = k := by omega
        rw [hidx]
        set gs := (make_offset_table n).getD k 0 with hgs
        set bc := (assocGet (make_char_table n) (hy.getD (i - k) default)).getD (-1) with hbc
        have hgs1 : (k : Int) + 1 ≤ gs := offset_pos n k hkm
        have hmax1 : (k : Int) + 1 ≤ max gs bc := le_trans hgs1 (le_max_left gs bc)
        have htn : k + 1 ≤ (max gs bc).toNat := by omega
        apply ih ((i - k) + (max gs bc).toNat) (by omega) (by omega)
        intro s hs
        by_cases hsold : s < i - (n.length - 1)
        · exact hinv s hsold
        · by_cases hocc : occursAtB hy n s = true
          swap
          · simpa using hocc
          exfalso
          have hslen : s + n.length ≤ hy.length := by
            rcases occursAtB_length hy n s hocc with h | h
            · exact h
            · omega
          have hpw := (occursAtB_iff_getD hy n s hslen).mp hocc
          by_cases hse : s = i - (n.length - 1)
          · apply hkP
            have hp := hpw (n.length - 1 - k) (by omega)
            have e : s + (n.length - 1 - k) = i - k := by omega
            rw [e] at hp
            exact hp.symm
          · set e := s - (i - (n.length - 1)) with he
            have he1 : 1 ≤ e := by omega
            have hek : (k : Int) + (e : Int) < max gs bc := by omega
            rcases lt_max_iff.mp hek with hgsc | hbcc
            · have hsafe := offset_safe n k e hkm he1
                (by
                  intro t ht hte
                  have h1 := hpw (n.length - 1 - t - e) (by omega)
                  have h2 := hkmin t ht
                  have e1 : s + (n.length - 1 - t - e) = i - t := by omega
                  rw [e1] at h1
                  rw [← h1]
                  exact h2.symm)
                (by
                  intro hke2 hcontra
                  apply hkP
                  have h1 := hpw (n.length - 1 - k - e) (by omega)
                  have e1 : s + (n.length - 1 - k - e) = i - k := by omega
                  rw [e1] at h1
                  exact hcontra.symm.trans h1.symm)
              rw [← hgs] at hsafe
              omega
            · rcases char_table_cases n (hy.getD (i - k) default) with hbc1 | ⟨hbc2, hbc3⟩
              · rw [← hbc] at hbc1
                omega
              · rw [← hbc] at hbc2 hbc3
                have hkee : (k : Int) + (e : Int) ≤ (n.length : Int) - 2 := by omega
                have hq1 : n.length - 1 - k - e < n.length - 1 := by omega
                have hnq : n.getD (n.length - 1 - k - e) default = hy.getD (i - k) default := by
                  have h1 := hpw (n.length - 1 - k - e) (by omega)
                  have e1 : s + (n.length - 1 - k - e) = i - k := by omega
                  rw [e1] at h1
                  exact h1.symm
                have hle := char_table_le n (hy.getD (i - k) default)
                  (n.length - 1 - k - e) hq1 hnq
                rw [← hbc] at hle
                omega
    · rw [searchAux, if_neg hlt, searchSpec,
        firstOcc_none_of_inv hy n hn i (by omega) hinv]

/-- The `search` computes exactly the leftmost-occurrence specification. -/
theorem search_eq_spec (hy n : List α) : search hy n = some (searchSpec hy n) := by
  by_cases h0 : n.length = 0
  · rw [search, if_pos h0]
    have hn : n = [] := List.length_eq_zero.mp h0
    subst hn
    have hocc : occursAtB hy ([] : List α) 0 = true := by
      unfold occursAtB
      simp
    rw [searchSpec, firstOccurrence_eq_some hy [] 0 (by omega) hocc
      (fun s' hs' => absurd hs' (by omega))]
    rfl
  · rw [search, if_neg h0]
    exact searchAux_correct n hy (by omega) (hy.length + 1) (n.length - 1) le_rfl (by omega)
      (fun s hs => absurd hs (by omega))

end BoyerMooreMain

theorem searchSpec_of_no_occ {α : Type} [DecidableEq α] [Inhabited α] (hy n : List α)
    (h : ∀ s, occursAtB hy n s = false) : searchSpec hy n = -1 := by
  rw [searchSpec, firstOccurrence_eq_none hy n h]

theorem search_longer_needle {α : Type} [DecidableEq α] [Inhabited α] (hy n : List α)
    (h : hy.length < n.length) : search hy n = some (-1) := by
  rw [search_eq_spec, searchSpec_of_no_occ]
  intro s
  by_cases hc : occursAtB hy n s = true
  · exfalso
    rcases occursAtB_length hy n s hc with h1 | h1 <;> omega
  · simpa using hc

/-- C1.  Round trip of insertion and exact lookup: for every non-empty token
sequence `lhs` and every `rhs`, after `add(lhs, rhs)` on any
`TransformationDict`, `get_rhs(lhs)` succeeds and contains `rhs`; and on a
freshly constructed dictionary, after `add(("a","b"), ("x",))`,
`get_rhs(("a","b"))` returns exactly the one-element set `{("x",)}`
(embedded as the one-element list `[["x"]]`).
-/
theorem claim_C1 :
    (∀ (td : TransformationDict) (lhs rhs : List String), lhs ≠ [] →
      ∃ S, (td.add lhs rhs).get_rhs lhs = some S ∧ rhs ∈ S) ∧
    (buildTD [(["a", "b"], ["x"])]).get_rhs ["a", "b"] = some [["x"]] := by
  constructor
  · intro td lhs rhs h
    obtain ⟨S₀, _, hnew⟩ := TransformationDict.get_rhs_add_self td lhs rhs h
    exact ⟨insertRhs S₀ rhs, hnew, insertRhs_self S₀ rhs⟩
  · rfl

/-- Witness for C1 at the concrete input of the claim. -/
theorem claim_C1_witness :
    ∃ S, (TransformationDict.empty.add ["a", "b"] ["x"]).get_rhs ["a", "b"] = some S ∧
      ["x"] ∈ S :=
  claim_C1.1 TransformationDict.empty ["a", "b"] ["x"] (by simp)

/-- C2.  The spec's partial-match test case fails on the code: after
`add(("a","b","c"), ("y",))`, `find_partial_expression(("b",))` returns the
empty list, not a result with head `("a",)` — even though the context pair
`(("a",), ("c",))` is recorded in the index for `"b"` exactly as the
docstring's "partial inside, not at the beginning" promises.  The candidate
test `after[:len(tail)+1] == tail` compares the non-empty `after` context
against the empty tail and never succeeds.
-/
theorem claim_C2 :
    (buildTD [(["a", "b", "c"], ["y"])]).findPartialExpression ["b"] = some [] ∧
    inIndex (buildTD [(["a", "b", "c"], ["y"])]).index "b" (["a"], ["c"]) := by
  constructor
  · rfl
  · unfold inIndex
    decide

/-- C3 counterexample.  Take the dictionary with the single rule
`("a","b","c") → ("y",)` and query `find_partial_expression(("b","c"))`.
The head `("a",)` is accepted (the `after` context `("c",)` equals the
tail), and the node `N` reached by descending `"a"`, `"b"`, `"c"` is
childless, so the claim demands one result pair `(("a",), ())`.  The code
returns the empty list: `find_all_paths` on a childless node yields no
paths, not a zero-length one.
-/
theorem claim_C3_counterexample :
    (buildTD [(["a", "b", "c"], ["y"])]).findPartialExpression ["b", "c"] = some [] ∧
    (buildTD [(["a", "b", "c"], ["y"])]).findPartialExpression ["b", "c"] ≠
      some [((["a"] : List String), ([] : List String))] := by
  constructor
  · rfl
  · intro h
    cases h.symm.trans (rfl : (buildTD [(["a", "b", "c"], ["y"])]).findPartialExpression
      ["b", "c"] = some [])

/-- C3 (amended).  For each accepted head, `find_partial_expression` emits one
result pair per *maximal* downward path from the node `N` reached through
head, first token and tail: on any well-formed trie, `find_all_paths`
returns exactly the non-empty token paths leading from the node to a
childless node; a childless `N` yields no path (and hence no result pair),
not a zero-length one.  Concretely, with rules `("a","b","c") → ("y",)` and
`("a","b","c","d","e") → ("z",)`, the query `("b","c")` yields exactly the
pair `(("a",), ("d","e"))` — the full path to the leaf, with no pair for
the intermediate node `"d"` and no empty continuation.
-/
theorem claim_C3 :
    (∀ (t : Trie), t.wfb = true → ∀ (p : List String),
      (p ∈ t.find_all_paths ↔
        p ≠ [] ∧ ∃ t', t.descendPath p = some t' ∧ t'.children = [])) ∧
    (∀ t : Trie, t.children = [] → t.find_all_paths = []) ∧
    (buildTD [(["a", "b", "c"], ["y"]), (["a", "b", "c", "d", "e"], ["z"])]).findPartialExpression
      ["b", "c"] = some [(["a"], ["d", "e"])] := by
  refine ⟨?_, ?_, rfl⟩
  · intro t hwf p
    exact find_all_paths_char (sizeOf t) t le_rfl hwf p
  · intro t h
    exact (Trie.find_all_paths_eq_nil_iff t).mpr h

/-- Witness for C3 at a concrete well-formed trie. -/
theorem claim_C3_witness :
    ["a"] ∈ (Trie.mk [("a", ([], Trie.mk []))]).find_all_paths :=
  (claim_C3.1 (Trie.mk [("a", ([], Trie.mk []))]) (by decide) ["a"]).mpr
    ⟨by simp, Trie.mk [], rfl, rfl⟩

/-- C4 counterexample.  On a freshly constructed `TransformationDict`,
`get_rhs` on the *empty* sequence does not return the empty set: the tuple
branch of `__getitem__` skips its loop and executes `return rule_set, d`
with `rule_set` unbound, raising `UnboundLocalError` (`none` in the
embedding), contradicting "absence is total and silent ... including the
empty sequence".
-/
theorem claim_C4_counterexample :
    TransformationDict.empty.get_rhs [] = none ∧
    TransformationDict.empty.get_rhs [] ≠ some [] := by
  exact ⟨rfl, by intro h; cases h⟩

/-- C4 (amended).  For every *non-empty* token sequence that was never
inserted, `get_rhs` returns the empty set and raises no exception; on the
empty sequence, `get_rhs` raises `UnboundLocalError` (embedded as `none`)
on every dictionary.
-/
theorem claim_C4 :
    (∀ (rules : List (List String × List String)) (lhs : List String), lhs ≠ [] →
      (∀ r ∈ rules, r.1 ≠ lhs) → (buildTD rules).get_rhs lhs = some []) ∧
    (∀ td : TransformationDict, td.get_rhs [] = none) := by
  constructor
  · intro rules lhs h hnot
    unfold buildTD
    rw [get_rhs_foldl_ne rules TransformationDict.empty lhs hnot]
    exact TransformationDict.get_rhs_empty h
  · intro td
    rfl

/-- Witness for C4 at a concrete never-inserted path. -/
theorem claim_C4_witness : (buildTD [(["a"], ["x"])]).get_rhs ["b"] = some [] :=
  claim_C4.1 [(["a"], ["x"])] ["b"] (by simp) (by decide)

/-- C5.  Boyer-Moore search correctness: for every haystack and needle over any
type with decidable equality, `search` returns the index of the leftmost
occurrence of the needle as a contiguous subsequence of the haystack and
`-1` when none exists (the `searchSpec` value); an empty needle returns
`0`; a needle longer than the haystack returns `-1`; and the spec's
concrete cases hold, including the all-repeated-symbol needle, where the
leftmost occurrence `0` is returned.
-/
theorem claim_C5 :
    (∀ (β : Type) [DecidableEq β] [Inhabited β] (hy n : List β),
      search hy n = some (searchSpec hy n)) ∧
    (∀ (β : Type) [DecidableEq β] [Inhabited β] (hy n : List β),
      n.length = 0 → search hy n = some 0) ∧
    (∀ (β : Type) [DecidableEq β] [Inhabited β] (hy n : List β),
      hy.length < n.length → search hy n = some (-1)) ∧
    search "ABCABD".toList "ABD".toList = some 3 ∧
    search "HERE IS A SIMPLE EXAMPLE".toList "EXAMPLE".toList = some 17 ∧
    search "AAAAAAAA".toList "AAAA".toList = some 0 ∧
    search "AB".toList "ABCD".toList = some (-1) := by
  refine ⟨?_, ?_, ?_, rfl, rfl, rfl, rfl⟩
  · intro β _ _ hy n
    exact search_eq_spec hy n
  · intro β _ _ hy n h
    rw [search, if_pos h]
  · intro β _ _ hy n h
    exact search_longer_needle hy n h

/-- Witness for C5, discharging the conditional conjuncts at concrete
inputs. -/
theorem claim_C5_witness :
    search "XYZ".toList ("".toList) = some 0 ∧
    search "AB".toList "ABCD".toList = some (-1) :=
  ⟨claim_C5.2.1 Char "XYZ".toList "".toList (by decide),
   claim_C5.2.2.1 Char "AB".toList "ABCD".toList (by decide)⟩

/-- C6.  Middle-token index content: after `add(lhs, rhs)`, a context pair is
recorded under a token iff it was already recorded, or the token occupies a
strictly interior position `i` of `lhs` (`0 < i < len(lhs) - 1`) and the
pair is `(lhs[:i], lhs[i+1:])` — so entries are recorded for exactly the
interior positions, and a token occurring only first or only last in `lhs`
contributes no index entry from that insertion.
-/
theorem claim_C6 :
    ∀ (td : TransformationDict) (lhs rhs : List String) (tok : String)
      (pr : List String × List String),
      inIndex (td.add lhs rhs).index tok pr ↔
        inIndex td.index tok pr ∨
          ∃ i, 0 < i ∧ i + 1 < lhs.length ∧ tok = lhs.getD i "" ∧
            pr = (lhs.take i, lhs.drop (i + 1)) :=
  TransformationDict.inIndex_add

/-- Witness for C6: the interior token of `("a","b","c")` receives exactly
the context pair `(("a",), ("c",))`. -/
theorem claim_C6_witness :
    inIndex (TransformationDict.empty.add ["a", "b", "c"] ["y"]).index "b" (["a"], ["c"]) :=
  (claim_C6 TransformationDict.empty ["a", "b", "c"] ["y"] "b" (["a"], ["c"])).mpr
    (Or.inr ⟨1, by omega, by decide, by decide, rfl⟩)

/-- C7.  The candidate filter of `find_partial_expression` — comparing `after`
truncated to `len(tail) + 1` elements against `tail` — succeeds iff `after`
equals `tail` exactly; and since every recorded `after` context is
non-empty, a single-token partial query (empty tail) returns the empty
list on every dictionary built by `add`, whatever rules were inserted.
-/
theorem claim_C7 :
    (∀ (after tl : List String), candidateFilter after tl = true ↔ after = tl) ∧
    (∀ (rules : List (List String × List String)) (first : String),
      (buildTD rules).findPartialExpression [first] = some []) :=
  ⟨candidateFilter_iff, findPartial_single_token⟩

/-- Witness for C7: both directions of the filter characterization at
concrete inputs, and a concrete single-token query. -/
theorem claim_C7_witness :
    candidateFilter ["c"] ["c"] = true ∧
    (buildTD [(["x", "y", "z"], ["w"])]).findPartialExpression ["y"] = some [] :=
  ⟨(claim_C7.1 ["c"] ["c"]).mpr rfl, claim_C7.2 [(["x", "y", "z"], ["w"])] "y"⟩

/-- C8.  Monotone accumulation: for every `TransformationDict`, every
`add(lhs, rhs)` call and every sequence `l`, any right-hand side reachable
via `get_rhs l` before the call is still reachable after it — insertion
only adds, never removes, alternatives.
-/
theorem claim_C8 :
    ∀ (td : TransformationDict) (lhs rhs l r : List String),
      td.memRhs l r → (td.add lhs rhs).memRhs l r :=
  fun td lhs rhs l r h => TransformationDict.memRhs_add_mono td lhs rhs l r h

/-- Witness for C8: a concrete stored alternative survives a later insert. -/
theorem claim_C8_witness : ((buildTD [(["a"], ["x"])]).add ["b"] ["y"]).memRhs ["a"] ["x"] :=
  claim_C8 (buildTD [(["a"], ["x"])]) ["b"] ["y"] ["a"] ["x"] ⟨[["x"]], rfl, by simp⟩

/-- C9.  Queries are read-only: in the state-passing embedding that threads the
trie through every lookup step (writing each visited child back into its
parent), `__getitem__`, `get_rhs`, `get_subdict` and
`find_partial_expression` all return the dictionary state unchanged — in
particular looking up a never-inserted path creates no node and no index
entry.
-/
theorem claim_C9 :
    (∀ (t : Trie) (lhs : List String), t.getItemS lhs = (t.getItem lhs, t)) ∧
    (∀ (td : TransformationDict) (lhs : List String),
      td.get_rhsS lhs = (td.get_rhs lhs, td)) ∧
    (∀ (td : TransformationDict) (lhs : List String),
      td.get_subdictS lhs = (td.get_subdict lhs, td)) ∧
    (∀ (td : TransformationDict) (p : List String),
      td.findPartialExpressionS p = (td.findPartialExpression p, td)) := by
  refine ⟨fun t lhs => Trie.getItemS_eq lhs t, ?_, ?_,
    TransformationDict.findPartialExpressionS_eq⟩
  · intro td lhs
    unfold TransformationDict.get_rhsS TransformationDict.get_rhs
    rw [Trie.getItemS_eq]
  · intro td lhs
    unfold TransformationDict.get_subdictS TransformationDict.get_subdict
    rw [Trie.getItemS_eq]

/-- C10.  Totality: every good-suffix table entry is strictly positive (in
fact at least `k + 1` at index `k`, so each mismatch advances the
alignment), and consequently the `search` loop always terminates — the
embedding's fuel of `len(haystack) + 1` outer iterations is never
exhausted, i.e. `search` returns a value on every input.  The depth-first
`find_all_paths` and the trie operations are total by construction
(structural recursion accepted by the system).
-/
theorem claim_C10 :
    (∀ (β : Type) [DecidableEq β] [Inhabited β] (needle : List β) (k : Nat),
      k < needle.length → 0 < (make_offset_table needle).getD k 0) ∧
    (∀ (β : Type) [DecidableEq β] [Inhabited β] (hy needle : List β),
      (search hy needle).isSome = true) := by
  constructor
  · intro β _ _ needle k hk
    have := offset_pos needle k hk
    omega
  · intro β _ _ hy needle
    rw [search_eq_spec]
    rfl

/-- Witness for C10 at a concrete needle and index. -/
theorem claim_C10_witness : 0 < (make_offset_table "ABD".toList).getD 0 0 :=
  claim_C10.1 Char "ABD".toList 0 (by decide)
